import Mathlib

/-!
The program go-l2ping: address codec, echo frame, ping loop and loss statistics

A shallow embedding of `main.go` (a Go port of the BlueZ `l2ping` tool).

* Go strings are byte sequences; they are modelled as `List Char`.
* Go `byte` values are natural numbers below 256, `int` values are integers
  wrapped to 64 bits (`wrapInt`).
* A run-time panic (index out of range) is the `none` of an `Option` in `str2ba` and the
  status `panicked` of a run of `ping`.
* The transport (the raw L2CAP socket) is an environment: the results the
  system calls return, in the order in which the program issues the calls.
-/

namespace L2ping

/-! ## Address codec (`str2ba`, `ba2str`) -/

/-- Conversion to a Go `byte`. -/
def toByte (n : Nat) : Nat := n % 256

/-- The type `unix.SockaddrL2`, restricted to the two fields the program sets or reads:
`Addr` is a `[6]byte`, `PSM` a `uint16`. -/
structure SockaddrL2 where
  Addr : List Nat
  PSM : Nat
deriving DecidableEq, Repr

/-- The function `strings.Split(s, sep)` for a one-byte separator: the substrings between the
separators, one more than there are separators (the empty string gives one empty substring). -/
def split (sep : Char) : List Char → List (List Char)
  | [] => [[]]
  | c :: cs =>
    if c = sep then [] :: split sep cs
    else
      match split sep cs with
      | [] => [[c]]
      | seg :: segs => (c :: seg) :: segs

/-- The value of one digit in `strconv.ParseUint`: `0`-`9`, and letters of either case as
`10 + (letter - a)`; no value for any other byte. -/
def digitVal (c : Char) : Option Nat :=
  if '0'.toNat ≤ c.toNat ∧ c.toNat ≤ '9'.toNat then some (c.toNat - '0'.toNat)
  else if 'a'.toNat ≤ c.toNat ∧ c.toNat ≤ 'z'.toNat then some (c.toNat - 'a'.toNat + 10)
  else if 'A'.toNat ≤ c.toNat ∧ c.toNat ≤ 'Z'.toNat then some (c.toNat - 'A'.toNat + 10)
  else none

/-- The digit loop of `strconv.ParseUint(s, 16, 8)`, with `n` the value so far: a byte that is
not a base-16 digit ends it with `(0, false)` (syntax error), a value above 255 ends it with
`(255, false)` (range error, the maximum value is returned). -/
def parseUintLoop : List Char → Nat → Nat × Bool
  | [], n => (n, true)
  | c :: cs, n =>
    match digitVal c with
    | none => (0, false)
    | some d =>
      if 16 ≤ d then (0, false)
      else if 255 < n * 16 + d then (255, false)
      else parseUintLoop cs (n * 16 + d)

/-- The call `strconv.ParseUint(s, 16, 8)`: the value and whether `err == nil`. The empty
string is a syntax error. -/
def parseUint (s : List Char) : Nat × Bool :=
  match s with
  | [] => (0, false)
  | _ => parseUintLoop s 0

/-- The loop `for i, tmp := range a` of `str2ba`: the error of `ParseUint` is dropped and the
value stored at index `i` of the 6-byte array; an index outside the array panics. -/
def str2baLoop : Nat → List (List Char) → List Nat → Option (List Nat)
  | _, [], b => some b
  | i, tmp :: rest, b =>
    if i < b.length then str2baLoop (i + 1) rest (b.set i (toByte (parseUint tmp).1))
    else none

/-- The function `str2ba`. -/
def str2ba (addr : List Char) : Option SockaddrL2 :=
  (str2baLoop 0 (split ':' addr) (List.replicate 6 0)).map fun b => { Addr := b, PSM := 1 }

/-- An uppercase hexadecimal digit, as `%X` prints it. -/
def upperHex (d : Nat) : Char :=
  if d < 10 then Char.ofNat ('0'.toNat + d) else Char.ofNat ('A'.toNat + (d - 10))

/-- The call `fmt.Sprintf("%02X", b)` for a byte `b`. -/
def sprintf02X (b : Nat) : List Char :=
  if b < 16 then ['0', upperHex b] else [upperHex (b / 16), upperHex (b % 16)]

/-- The loop `for i := len(ba.Addr); i > 0; i--` of `ba2str`, with `s` the text built so far. -/
def ba2strLoop (addr : List Nat) : Nat → List Char → List Char
  | 0, s => s
  | i + 1, s =>
    ba2strLoop addr i
      ((if i + 1 ≠ addr.length then s ++ [':'] else s) ++ sprintf02X (addr.getD i 0))

/-- The function `ba2str` (the argument is always the `*unix.SockaddrL2` that `Getsockname`
returns for an L2CAP socket, so the type assertion is left out). -/
def ba2str (ba : SockaddrL2) : List Char :=
  ba2strLoop ba.Addr ba.Addr.length []

/-! ### Specification side: well-formed address text -/

/-- One of `0`-`9`, `A`-`F`. -/
def isUpperHexDigit (c : Char) : Bool :=
  (48 ≤ c.toNat && c.toNat ≤ 57) || (65 ≤ c.toNat && c.toNat ≤ 70)

/-- One of `0`-`9`, `A`-`F`, `a`-`f`. -/
def isHexDigit (c : Char) : Bool :=
  (48 ≤ c.toNat && c.toNat ≤ 57) || (65 ≤ c.toNat && c.toNat ≤ 70) ||
    (97 ≤ c.toNat && c.toNat ≤ 102)

/-- The value of a hexadecimal digit (0 for any other character). -/
def hexDigitValue (c : Char) : Nat :=
  if 48 ≤ c.toNat ∧ c.toNat ≤ 57 then c.toNat - 48
  else if 65 ≤ c.toNat ∧ c.toNat ≤ 70 then c.toNat - 55
  else if 97 ≤ c.toNat ∧ c.toNat ≤ 102 then c.toNat - 87
  else 0

/-- The number a text of hexadecimal digits denotes, most significant digit first. -/
def hexValue (seg : List Char) : Nat :=
  seg.foldl (fun n c => n * 16 + hexDigitValue c) 0

/-- A well-formed address: six groups of two uppercase hexadecimal digits, separated by `:`. -/
def wellFormed (s : List Char) : Bool :=
  (split ':' s).length == 6 &&
    (split ':' s).all fun g => g.length == 2 && g.all isUpperHexDigit

/-- The groups written one after the other with `:` between them. -/
def joinGroups : List (List Char) → List Char
  | [] => []
  | [g] => g
  | g :: gs => g ++ ':' :: joinGroups gs

/-- A segment that denotes a byte: not empty, hexadecimal digits only, value below 256. -/
def validHexByte (seg : List Char) : Bool :=
  !seg.isEmpty && seg.all isHexDigit && decide (hexValue seg < 256)

/-! ## Machine integers and single-precision arithmetic (`stat`) -/

/-- A Go `int` on a 64-bit platform: the integer wrapped to `-2^63 .. 2^63 - 1`. -/
def wrapInt (x : Int) : Int :=
  (x + 9223372036854775808) % 18446744073709551616 - 9223372036854775808

/-- The integer nearest to `n / d`, a tie going to the even one (the IEEE 754 default). -/
def roundNearestEven (n d : Nat) : Nat :=
  if 2 * (n % d) < d then n / d
  else if d < 2 * (n % d) then n / d + 1
  else if (n / d) % 2 = 0 then n / d
  else n / d + 1

/-- The number of halvings that bring `n` below 2, at most `fuel` of them. -/
def ilog2Fuel : Nat → Nat → Nat
  | 0, _ => 0
  | fuel + 1, n => if n < 2 then 0 else ilog2Fuel fuel (n / 2) + 1

/-- The position of the highest set bit of `n` (0 for `n < 2`). -/
def ilog2 (n : Nat) : Nat := ilog2Fuel n n

/-- The integer part of the binary logarithm of `n / d`, for positive `n` and `d`. -/
def floorLog2 (n d : Nat) : Int :=
  if d * 2 ^ ((ilog2 n : Int) - (ilog2 d : Int)).toNat
      ≤ n * 2 ^ ((ilog2 d : Int) - (ilog2 n : Int)).toNat
  then (ilog2 n : Int) - (ilog2 d : Int)
  else (ilog2 n : Int) - (ilog2 d : Int) - 1

/-- A finite `float32` value: `mant * 2 ^ exp`, negated when `neg`. -/
structure F32 where
  neg : Bool
  mant : Nat
  exp : Int
deriving DecidableEq, Repr

/-- The positive rational `n / d` rounded to `float32`: a significand of 24 bits, round to
nearest, ties to even. The exponent is not bounded: the result is the IEEE 754 one whenever
its magnitude lies in the normal range `2^-126 .. 2^128`, which is the case for every value
`stat` computes from 64-bit counters with `sentPkt ≠ 0` (magnitudes between `2^-70` and
`2^71`). -/
def f32Round (neg : Bool) (n d : Nat) : F32 :=
  if n = 0 then { neg := neg, mant := 0, exp := 0 }
  else
    { neg := neg
      mant := roundNearestEven (n * 2 ^ (23 - floorLog2 n d).toNat)
        (d * 2 ^ (floorLog2 n d - 23).toNat)
      exp := floorLog2 n d - 23 }

/-- The conversion `float32(i)` of an `int`. -/
def f32OfInt (i : Int) : F32 := f32Round (decide (i < 0)) i.natAbs 1

/-- The quotient `x / y` of two `float32` values, `y` not zero. -/
def f32Div (x y : F32) : F32 :=
  f32Round (x.neg != y.neg) (x.mant * 2 ^ (x.exp - y.exp).toNat)
    (y.mant * 2 ^ (y.exp - x.exp).toNat)

/-- The conversion `int(x)` of a `float32`: the fraction is discarded (truncation towards
zero). The result is the one of Go for a value within the range of `int`; outside it Go
leaves the result to the platform, and the quotient of `stat` stays within it (it is at most
about 100) when `0 ≤ recvPkt ≤ sentPkt`. -/
def f32ToInt (x : F32) : Int :=
  let m : Nat := x.mant * 2 ^ x.exp.toNat / 2 ^ (-x.exp).toNat
  if x.neg then -(m : Int) else (m : Int)

/-- The magnitude of a `float32` value, as a rational number. -/
def F32.mag (x : F32) : ℚ := (x.mant : ℚ) * (2 : ℚ) ^ x.exp

/-- The rational number a `float32` value stands for. -/
def F32.value (x : F32) : ℚ := if x.neg then -x.mag else x.mag

/-- The variable `loss` of `stat` (lines 67-72):
`int(float32(sentPkt-recvPkt) / (float32(sentPkt) / 100.0))`, and 0 when `sentPkt` is 0. -/
def lossPercent (sentPkt recvPkt : Int) : Int :=
  if sentPkt ≠ 0 then
    f32ToInt (f32Div (f32OfInt (wrapInt (sentPkt - recvPkt)))
      (f32Div (f32OfInt sentPkt) (f32OfInt 100)))
  else 0

/-! ### Specification side: the exact percentage -/

/-- The exact loss percentage `(sent - received) / sent * 100`. -/
def exactPercent (sent received : Int) : ℚ := ((sent - received : Int) : ℚ) / (sent : ℚ) * 100

/-- A rational rounded to the nearest integer (halves away from zero). -/
def roundNearest (q : ℚ) : Int := round q

/-! ## The echo frame and the ping loop (`ping`) -/

def l2CAPCommandHeaderSize : Nat := 4
def l2CAPCommandRejectResponse : Nat := 0x01
def l2CAPEchoRequest : Nat := 0x08
def l2CAPEchoResponse : Nat := 0x09

/-- The first identifier. -/
def ident : Nat := 200

/-- The command-line flags and the argument. -/
structure Config where
  svr : List Char
  size : Int
  count : Int
  timeout : Int
  delay : Int
deriving DecidableEq, Repr

/-- The messages written to the error stream. -/
inductive Failure where
  | socket | bind | connect | getsockname | write | poll | recvfrom | disconnected | reject
deriving DecidableEq, Repr

/-- What the program does that can be observed: system calls on the socket, lines on the
output and error streams, the calls of `time.Sleep` (with the duration in nanoseconds, an
`int64`; a call with a duration that is not positive returns at once), and leaving with an
exit code. The elapsed time printed in a success line is not part of the model. -/
inductive Act where
  | connect (addr : SockaddrL2)
  | banner (svr : List Char) (localAddr : List Char) (size : Int)
  | write (frame : List Nat)
  | poll (timeoutMs : Int)
  | recvfrom
  | success (bytes : Nat) (idOffset : Nat)
  | loss (idOffset : Nat)
  | sleep (nanoseconds : Int)
  | summary (sent received lossPct : Int)
  | stderr (msg : Failure)
  | exit (code : Nat)
deriving DecidableEq, Repr

/-- What the transport answers in one round of the wait loop. -/
inductive Wait where
  /-- The call `Poll` returns an error. -/
  | pollErr
  /-- The call `Poll` returns 0: nothing to read within the timeout. -/
  | pollTimeout
  /-- The call `Poll` reports the socket readable and `Recvfrom` returns an error. -/
  | recvErr
  /-- The call `Poll` reports the socket readable and `Recvfrom` returns these bytes. -/
  | recvData (data : List Nat)
deriving DecidableEq, Repr

/-- The results of the system calls, in the order of the calls. -/
structure Env where
  socket : Bool
  bind : Bool
  connect : Bool
  getsockname : Option SockaddrL2
  writes : List Bool
  waits : List Wait
deriving DecidableEq, Repr

/-- The variables of the loop: the globals `count`, `sentPkt`, `recvPkt` and the locals `id`,
`sendBuff`, `receiveBuff`. -/
structure LoopState where
  count : Int
  id : Nat
  sentPkt : Int
  recvPkt : Int
  sendBuff : List Nat
  receiveBuff : List Nat
deriving DecidableEq, Repr

/-- How a run ends: the process exits, panics, or is still waiting for a system call whose
result the environment does not give. -/
inductive Status where
  | exited (code : Nat)
  | panicked
  | blocked
deriving DecidableEq, Repr

/-- A run: how it ends, the variables at that point, and what it did. -/
structure Run where
  status : Status
  state : LoopState
  trace : List Act
deriving DecidableEq, Repr

/-- The function `stat`: the summary line with the loss percentage, then exit code 0. -/
def stat (sentPkt recvPkt : Int) : List Act :=
  [.summary sentPkt recvPkt (lossPercent sentPkt recvPkt), .exit 0]

/-- The loop `for i := 0; i < size; i++ { sendBuff[4+i] = byte(i%40 + 'A') }`. -/
def fillPayload (size : Nat) (buf : List Nat) : List Nat :=
  (List.range size).foldl
    (fun b i => b.set (l2CAPCommandHeaderSize + i) (toByte (i % 40 + 'A'.toNat))) buf

/-- The send buffer after its initialisation (lines 126-133): the payload, then the opcode,
the length byte and the reserved byte. -/
def initSendBuff (size : Nat) (buf : List Nat) : List Nat :=
  (((fillPayload size buf).set 0 l2CAPEchoRequest).set 2 (toByte size)).set 3 0

/-- The receive buffer after `Recvfrom` has stored `data` in it: at most `len(buf)` bytes are
stored, the rest of the buffer keeps what it held. -/
def recvInto (buf data : List Nat) : List Nat :=
  data.take buf.length ++ buf.drop data.length

/-- The timeout handed to `Poll`: `timeout*1000`, an `int`. -/
def pollTimeout (timeout : Int) : Int := wrapInt (timeout * 1000)

/-- How the wait for the response ends. -/
inductive WaitEnd where
  | matched
  | lost
  | failed
  | blocked
deriving DecidableEq, Repr

/-- The result of the wait loop: how it ends, the receive buffer, the answers of the
transport not yet used, and what the loop did. -/
structure WaitResult where
  outcome : WaitEnd
  receiveBuff : List Nat
  rest : List Wait
  trace : List Act
deriving DecidableEq, Repr

/-- The inner loop `for { ... }` of `ping` (lines 159-197), one round for each answer of the
transport. The buffer has `4 + size` bytes, so the indices 0 and 1 are in range. -/
def waitLoop (timeout : Int) (id : Nat) : List Nat → List Wait → WaitResult
  | buf, [] => ⟨.blocked, buf, [], [.poll (pollTimeout timeout)]⟩
  | buf, .pollErr :: rest =>
    ⟨.failed, buf, rest, [.poll (pollTimeout timeout), .stderr .poll]⟩
  | buf, .pollTimeout :: rest => ⟨.lost, buf, rest, [.poll (pollTimeout timeout)]⟩
  | buf, .recvErr :: rest =>
    ⟨.failed, buf, rest, [.poll (pollTimeout timeout), .recvfrom, .stderr .recvfrom]⟩
  | buf, .recvData data :: rest =>
    if min data.length buf.length = 0 then
      ⟨.failed, recvInto buf data, rest,
        [.poll (pollTimeout timeout), .recvfrom, .stderr .disconnected]⟩
    else if (recvInto buf data).getD 1 0 ≠ id then
      let r := waitLoop timeout id (recvInto buf data) rest
      { r with trace := .poll (pollTimeout timeout) :: .recvfrom :: r.trace }
    else if (recvInto buf data).getD 0 0 = l2CAPEchoResponse then
      ⟨.matched, recvInto buf data, rest, [.poll (pollTimeout timeout), .recvfrom]⟩
    else if (recvInto buf data).getD 0 0 = l2CAPCommandRejectResponse then
      ⟨.failed, recvInto buf data, rest,
        [.poll (pollTimeout timeout), .recvfrom, .stderr .reject]⟩
    else
      let r := waitLoop timeout id (recvInto buf data) rest
      { r with trace := .poll (pollTimeout timeout) :: .recvfrom :: r.trace }

/-- The identifier after `id++; if id > 254 { id = ident }`, `id` being a byte. -/
def nextId (id : Nat) : Nat :=
  if 254 < toByte (id + 1) then ident else toByte (id + 1)

/-- The byte `id - ident` printed in the success and loss lines. -/
def idOffset (id : Nat) : Nat := toByte (id + 256 - ident)

/-- One round of the outer loop of `ping`: it either goes on to the next round or ends the
run. -/
inductive Step where
  | next (st : LoopState) (rest : List Wait) (trace : List Act)
  | stop (status : Status) (st : LoopState) (trace : List Act)
deriving DecidableEq, Repr

/-- The body of the outer loop `for { ... }` of `ping` (lines 137-219), `w` being the result
of `Write` when the environment gives one. The decrement of `count` that ends the loop is
followed by `stat(0)`: the summary line and exit code 0. Every `goto onError` is exit code 1
with no other output. After a success line and with `delay > 0` the program calls
`time.Sleep(time.Duration(delay) * time.Second)`, a product of two `int64` values. -/
def cycle (cfg : Config) (st : LoopState) (w : Option Bool) (waits : List Wait) : Step :=
  let count1 := if st.count ≠ -1 then wrapInt (st.count - 1) else st.count
  if st.count ≠ -1 ∧ count1 < 0 then
    .stop (.exited 0) { st with count := count1 } (stat st.sentPkt st.recvPkt)
  else
    let frame := st.sendBuff.set 1 st.id
    let st1 := { st with count := count1, sendBuff := frame }
    match w with
    | none => .stop .blocked st1 [.write frame]
    | some false => .stop (.exited 1) st1 [.write frame, .stderr .write, .exit 1]
    | some true =>
      let r := waitLoop cfg.timeout st.id st.receiveBuff waits
      let st2 := { st1 with receiveBuff := r.receiveBuff }
      match r.outcome with
      | .blocked => .stop .blocked st2 (.write frame :: r.trace)
      | .failed => .stop (.exited 1) st2 (.write frame :: r.trace ++ [.exit 1])
      | .matched =>
        .next
          { st2 with
            sentPkt := wrapInt (st.sentPkt + 1)
            recvPkt := wrapInt (st.recvPkt + 1)
            id := nextId st.id }
          r.rest
          (.write frame :: r.trace ++
            .success (r.receiveBuff.getD 2 0) (idOffset st.id) ::
              (if 0 < cfg.delay then [.sleep (wrapInt (cfg.delay * 1000000000))] else []))
      | .lost =>
        .next { st2 with sentPkt := wrapInt (st.sentPkt + 1), id := nextId st.id } r.rest
          (.write frame :: r.trace ++ [.loss (idOffset st.id)])

/-- The outer loop of `ping`: rounds of `cycle`, one for each result of `Write`. -/
def pingLoop (cfg : Config) : LoopState → List Bool → List Wait → Run
  | st, [], waits =>
    match cycle cfg st none waits with
    | .stop status st1 trace => ⟨status, st1, trace⟩
    | .next st1 _ trace => ⟨.blocked, st1, trace⟩
  | st, w :: ws, waits =>
    match cycle cfg st (some w) waits with
    | .stop status st1 trace => ⟨status, st1, trace⟩
    | .next st1 rest trace =>
      let r := pingLoop cfg st1 ws rest
      { r with trace := trace ++ r.trace }

/-- The variables when the loop is entered (line 135): `count` from the flag, the counters at
zero, the identifier 200, a send buffer of `4 + size` bytes that holds the frame, a receive
buffer of `4 + size` zero bytes. -/
def initState (count : Int) (size : Nat) : LoopState :=
  { count := count
    id := ident
    sentPkt := 0
    recvPkt := 0
    sendBuff := initSendBuff size (List.replicate (l2CAPCommandHeaderSize + size) 0)
    receiveBuff := List.replicate (l2CAPCommandHeaderSize + size) 0 }

/-- The largest number of bytes the Go runtime allocates on 64-bit Linux (`maxAlloc`,
`2^48`): `make` panics for a longer slice. -/
def maxAlloc : Int := 281474976710656

/-- The function `ping`. The two `make` calls panic when `4 + size` is negative or above
`maxAlloc` (below it, the memory is taken to be there); the system calls before the loop end
the run with exit code 1 when they fail; `str2ba` may panic; with `-4 ≤ size < 0` the
assignment of the header bytes panics after the banner is printed. The goroutine that prints
the summary on a signal is not part of the model. -/
def ping (cfg : Config) (env : Env) : Run :=
  let st0 : LoopState :=
    { count := cfg.count, id := 0, sentPkt := 0, recvPkt := 0, sendBuff := [],
      receiveBuff := [] }
  if wrapInt (4 + cfg.size) < 0 ∨ maxAlloc < wrapInt (4 + cfg.size) then ⟨.panicked, st0, []⟩
  else if !env.socket then ⟨.exited 1, st0, [.stderr .socket, .exit 1]⟩
  else if !env.bind then ⟨.exited 1, st0, [.stderr .bind, .exit 1]⟩
  else
    match str2ba cfg.svr with
    | none => ⟨.panicked, st0, []⟩
    | some addr =>
      if !env.connect then ⟨.exited 1, st0, [.connect addr, .stderr .connect, .exit 1]⟩
      else
        match env.getsockname with
        | none => ⟨.exited 1, st0, [.connect addr, .stderr .getsockname, .exit 1]⟩
        | some localAddr =>
          if cfg.size < 0 then
            ⟨.panicked, st0, [.connect addr, .banner cfg.svr (ba2str localAddr) cfg.size]⟩
          else
            let r := pingLoop cfg (initState cfg.count cfg.size.toNat) env.writes env.waits
            { r with
              trace := .connect addr :: .banner cfg.svr (ba2str localAddr) cfg.size ::
                r.trace }

/-! ### Specification side: scripted sessions -/

/-- The frames written to the socket, in order. -/
def writesOf (trace : List Act) : List (List Nat) :=
  trace.filterMap fun a => match a with
    | .write f => some f
    | _ => none

/-- The identifier offsets printed in the success and loss lines, in order. -/
def offsetsOf (trace : List Act) : List Nat :=
  trace.filterMap fun a => match a with
    | .success _ o => some o
    | .loss o => some o
    | _ => none

/-- The summary lines printed: sent, received, loss percentage. -/
def summariesOf (trace : List Act) : List (Int × Int × Int) :=
  trace.filterMap fun a => match a with
    | .summary s r l => some (s, r, l)
    | _ => none

/-- The timeouts of the `Poll` calls, in order. -/
def pollsOf (trace : List Act) : List Int :=
  trace.filterMap fun a => match a with
    | .poll t => some t
    | _ => none

/-- The trace of a round of the outer loop. -/
def Step.trace : Step → List Act
  | .next _ _ trace => trace
  | .stop _ _ trace => trace

/-- A frame the wait loop reads and passes over while it waits for the response to `id`: it
has an identifier byte, and either that byte is not `id` or the frame is neither an echo
response nor a command reject. -/
def Ignored (id : Nat) (f : List Nat) : Prop :=
  2 ≤ f.length ∧
    (f.getD 1 0 ≠ id ∨
      (f.getD 0 0 ≠ l2CAPEchoResponse ∧ f.getD 0 0 ≠ l2CAPCommandRejectResponse))

/-- A frame whose identifier byte is not `id`. -/
def Mismatched (id : Nat) (f : List Nat) : Prop := 2 ≤ f.length ∧ f.getD 1 0 ≠ id

/-- What the transport does in one round that ends without a failure: frames that are passed
over, then either the echo response to the current identifier (`reply` holds the bytes after
the opcode and the identifier) or a timeout. -/
structure Round where
  stray : List (List Nat)
  reply : Option (List Nat)
deriving DecidableEq, Repr

/-- The answers of the transport in one round, the identifier being `id`. -/
def roundWaits (id : Nat) (r : Round) : List Wait :=
  r.stray.map Wait.recvData ++
    [match r.reply with
      | none => Wait.pollTimeout
      | some tail => Wait.recvData (l2CAPEchoResponse :: id :: tail)]

/-- The answers of the transport in a session of several rounds, the first identifier being
`id`. -/
def sessionWaits : Nat → List Round → List Wait
  | _, [] => []
  | id, r :: rs => roundWaits id r ++ sessionWaits (nextId id) rs

/-- Every stray frame of every round is one the wait loop passes over. -/
def SessionOK : Nat → List Round → Prop
  | _, [] => True
  | id, r :: rs => (∀ f ∈ r.stray, Ignored id f) ∧ SessionOK (nextId id) rs

/-- The number of rounds that end with the echo response. -/
def matchedCount (rounds : List Round) : Nat :=
  (rounds.filter fun r => r.reply.isSome).length

/-- The identifier `k` rounds after `id`. -/
def idAfter : Nat → Nat → Nat
  | id, 0 => id
  | id, k + 1 => idAfter (nextId id) k

/-- The ping loop, entered as `ping` enters it, in a session in which every `Write` of the
scripted rounds succeeds and the transport answers as the rounds say; `ws` and `waits` are
what the environment would answer after the script. -/
def runSession (cfg : Config) (size : Nat) (rounds : List Round) (ws : List Bool)
    (waits : List Wait) : Run :=
  pingLoop cfg (initState cfg.count size) (List.replicate rounds.length true ++ ws)
    (sessionWaits ident rounds ++ waits)

/-- The receive buffer after the frames have been read one after the other. -/
def recvAll (buf : List Nat) (frames : List (List Nat)) : List Nat :=
  frames.foldl recvInto buf

/-- The rounds of the wait loop that read the frames: a `Poll` and a `Recvfrom` each. -/
def readTrace (timeout : Int) (frames : List (List Nat)) : List Act :=
  frames.flatMap fun _ => [Act.poll (pollTimeout timeout), Act.recvfrom]

/-- The answers of the transport begin with a read that returns exactly one byte: the only
read after which byte 1 of the receive buffer, the one compared with the identifier, is not
a byte of the frame just read. -/
def startsWithOneByteRead : List Wait → Bool
  | .recvData [_] :: _ => true
  | _ => false

/-- The variables a run can have at the start of a round of the outer loop. -/
inductive Reachable (cfg : Config) (size : Nat) : LoopState → Prop where
  | init : Reachable cfg size (initState cfg.count size)
  | step {st st1 : LoopState} {w : Option Bool} {waits rest : List Wait} {trace : List Act} :
      Reachable cfg size st → cycle cfg st w waits = .next st1 rest trace →
      Reachable cfg size st1

/-! ## Theorems: address codec -/

theorem split_ne_nil (sep : Char) (s : List Char) : split sep s ≠ [] := by
  cases s with
  | nil => simp [split]
  | cons c cs =>
    unfold split
    split_ifs
    · simp
    · split <;> simp

/-- Joining the segments of a text gives the text back. -/
theorem joinGroups_split (s : List Char) : joinGroups (split ':' s) = s := by
  induction s with
  | nil => simp [split, joinGroups]
  | cons c cs ih =>
    unfold split
    split_ifs with h
    · have hne := split_ne_nil ':' cs
      cases hs : split ':' cs with
      | nil => exact absurd hs hne
      | cons g gs => rw [hs] at ih; simp [joinGroups, ih, h]
    · cases hs : split ':' cs with
      | nil => exact absurd hs (split_ne_nil ':' cs)
      | cons g gs =>
        rw [hs] at ih
        cases gs with
        | nil => simpa [joinGroups] using ih
        | cons g2 gs2 => simp only [joinGroups] at ih ⊢; simp [ih]

theorem digitVal_upper (c : Char) (h : isUpperHexDigit c = true) :
    digitVal c = some (hexDigitValue c) ∧ hexDigitValue c < 16 ∧
      upperHex (hexDigitValue c) = c := by
  have e0 : '0'.toNat = 48 := by decide
  have e9 : '9'.toNat = 57 := by decide
  have ea : 'a'.toNat = 97 := by decide
  have ez : 'z'.toNat = 122 := by decide
  have eA : 'A'.toNat = 65 := by decide
  have eZ : 'Z'.toNat = 90 := by decide
  simp only [isUpperHexDigit, Bool.or_eq_true, Bool.and_eq_true, decide_eq_true_eq] at h
  unfold digitVal hexDigitValue upperHex
  rw [e0, e9, ea, ez, eA, eZ]
  rcases h with h | h
  · have h1 : 48 + (c.toNat - 48) = c.toNat := by omega
    simp [h, h1]
    omega
  · have h1 : ¬ (48 ≤ c.toNat ∧ c.toNat ≤ 57) := by omega
    have h2 : ¬ (97 ≤ c.toNat ∧ c.toNat ≤ 122) := by omega
    have h3 : 65 ≤ c.toNat ∧ c.toNat ≤ 90 := by omega
    have h4 : ¬ (c.toNat - 55 < 10) := by omega
    have h5 : 65 + (c.toNat - 55 - 10) = c.toNat := by omega
    have h6 : c.toNat - 65 + 10 = c.toNat - 55 := by omega
    simp [h, h1, h2, h3, h4, h5, h6]
    omega

/-- Two uppercase hexadecimal digits parse to their value, and `%02X` prints them back. -/
theorem parse_group (a b : Char) (ha : isUpperHexDigit a = true)
    (hb : isUpperHexDigit b = true) :
    parseUint [a, b] = (hexValue [a, b], true) ∧ hexValue [a, b] < 256 ∧
      sprintf02X (toByte (hexValue [a, b])) = [a, b] := by
  obtain ⟨a1, a2, a3⟩ := digitVal_upper a ha
  obtain ⟨b1, b2, b3⟩ := digitVal_upper b hb
  have hv : hexValue [a, b] = hexDigitValue a * 16 + hexDigitValue b := by
    simp [hexValue]
  have hlt : hexDigitValue a * 16 + hexDigitValue b < 256 := by omega
  refine ⟨?_, by omega, ?_⟩
  · have n1 : ¬ (16 ≤ hexDigitValue a) := by omega
    have n2 : ¬ (16 ≤ hexDigitValue b) := by omega
    have n3 : ¬ (255 < hexDigitValue a) := by omega
    have n4 : ¬ (255 < hexDigitValue a * 16 + hexDigitValue b) := by omega
    simp [parseUint, parseUintLoop, a1, b1, hv, n1, n2, n3, n4]
  · rw [hv]
    have hb256 : toByte (hexDigitValue a * 16 + hexDigitValue b)
        = hexDigitValue a * 16 + hexDigitValue b := by
      unfold toByte; omega
    rw [hb256]
    unfold sprintf02X
    by_cases h0 : hexDigitValue a * 16 + hexDigitValue b < 16
    · have ha0 : hexDigitValue a = 0 := by omega
      have hz : a = '0' := by rw [← a3, ha0]; decide
      have h1 : hexDigitValue a * 16 + hexDigitValue b = hexDigitValue b := by omega
      rw [h1, if_pos (by omega), b3, hz]
    · have d1 : (hexDigitValue a * 16 + hexDigitValue b) / 16 = hexDigitValue a := by omega
      have d2 : (hexDigitValue a * 16 + hexDigitValue b) % 16 = hexDigitValue b := by omega
      simp [h0, d1, d2, a3, b3]

/-- The byte `str2ba` stores for one segment. -/
theorem str2baLoop_append (segs : List (List Char)) :
    ∀ (pre suf : List Nat), segs.length ≤ suf.length →
      str2baLoop pre.length segs (pre ++ suf) =
        some (pre ++ segs.map (fun t => toByte (parseUint t).1) ++ suf.drop segs.length) := by
  induction segs with
  | nil => intro pre suf _; simp [str2baLoop]
  | cons t rest ih =>
    intro pre suf h
    cases suf with
    | nil => simp at h
    | cons x suf1 =>
      have h1 : rest.length ≤ suf1.length := by simpa using h
      have hlt : pre.length < (pre ++ x :: suf1).length := by simp
      have hset : (pre ++ x :: suf1).set pre.length (toByte (parseUint t).1)
          = (pre ++ [toByte (parseUint t).1]) ++ suf1 := by
        rw [List.set_append_right _ _ (Nat.le_refl _)]
        simp
      have hl : pre.length + 1 = (pre ++ [toByte (parseUint t).1]).length := by simp
      unfold str2baLoop
      rw [if_pos hlt, hset, hl, ih _ _ h1]
      simp

/-- With at most six segments `str2ba` returns: the segment values in segment order, then
zeros. -/
theorem str2ba_of_le_six (s : List Char) (h : (split ':' s).length ≤ 6) :
    str2ba s = some
      { Addr := (split ':' s).map (fun t => toByte (parseUint t).1) ++
          List.replicate (6 - (split ':' s).length) 0
        PSM := 1 } := by
  have := str2baLoop_append (split ':' s) [] (List.replicate 6 0) (by simpa using h)
  simp only [List.length_nil, List.nil_append, List.drop_replicate] at this
  unfold str2ba
  rw [this]
  rfl

/-- A segment stored past the end of the array makes the loop panic. -/
theorem str2baLoop_overflow (segs : List (List Char)) :
    ∀ (i : Nat) (b : List Nat), i ≤ b.length → b.length < i + segs.length →
      str2baLoop i segs b = none := by
  induction segs with
  | nil => intro i b h1 h2; simp at h2; omega
  | cons t rest ih =>
    intro i b h1 h2
    unfold str2baLoop
    split_ifs with hlt
    · apply ih
      · simp; omega
      · simp at h2 ⊢; omega
    · rfl

/-- With more than six segments `str2ba` panics (index out of range). -/
theorem str2ba_of_gt_six (s : List Char) (h : 6 < (split ':' s).length) : str2ba s = none := by
  unfold str2ba
  rw [str2baLoop_overflow _ 0 _ (by simp) (by simpa using h)]
  rfl

/-- The groups of a well-formed address. -/
theorem wellFormed_groups (s : List Char) (h : wellFormed s = true) :
    ∃ g0 g1 g2 g3 g4 g5 : List Char, split ':' s = [g0, g1, g2, g3, g4, g5] ∧
      ∀ g ∈ [g0, g1, g2, g3, g4, g5], ∃ a b, g = [a, b] ∧ isUpperHexDigit a = true ∧
        isUpperHexDigit b = true := by
  simp only [wellFormed, Bool.and_eq_true, beq_iff_eq, List.all_eq_true] at h
  obtain ⟨hlen, hall⟩ := h
  match hs : split ':' s, hlen with
  | [g0, g1, g2, g3, g4, g5], _ =>
    refine ⟨g0, g1, g2, g3, g4, g5, rfl, ?_⟩
    intro g hg
    have hg2 := hall g (by rw [hs]; exact hg)
    obtain ⟨hl, hd⟩ := hg2
    match g, hl with
    | [a, b], _ =>
      refine ⟨a, b, rfl, ?_, ?_⟩
      · exact hd a (by simp)
      · exact hd b (by simp)

/-- A group of two uppercase hexadecimal digits is stored as its value and printed back as
itself. -/
theorem group_roundtrip (g : List Char)
    (h : ∃ a b, g = [a, b] ∧ isUpperHexDigit a = true ∧ isUpperHexDigit b = true) :
    toByte (parseUint g).1 = hexValue g ∧ sprintf02X (hexValue g) = g := by
  obtain ⟨a, b, rfl, ha, hb⟩ := h
  obtain ⟨p1, p2, p3⟩ := parse_group a b ha hb
  have hb256 : toByte (hexValue [a, b]) = hexValue [a, b] := by unfold toByte; omega
  rw [p1]
  rw [hb256] at p3
  exact ⟨hb256, p3⟩

/-- C1 (amended). For every well-formed address text the parsed address is formatted with the
six groups in the opposite order: `ba2str (str2ba s)` is the text of the groups of `s` read
from the last to the first (the text `s` itself is the groups read from the first to the
last). -/
theorem ba2str_str2ba_reverses (s : List Char) (h : wellFormed s = true) :
    (str2ba s).map ba2str = some (joinGroups (split ':' s).reverse) ∧
      joinGroups (split ':' s) = s := by
  refine ⟨?_, joinGroups_split s⟩
  obtain ⟨g0, g1, g2, g3, g4, g5, hs, hg⟩ := wellFormed_groups s h
  rw [str2ba_of_le_six s (by rw [hs]; simp), hs]
  obtain ⟨v0, r0⟩ := group_roundtrip g0 (hg g0 (by simp))
  obtain ⟨v1, r1⟩ := group_roundtrip g1 (hg g1 (by simp))
  obtain ⟨v2, r2⟩ := group_roundtrip g2 (hg g2 (by simp))
  obtain ⟨v3, r3⟩ := group_roundtrip g3 (hg g3 (by simp))
  obtain ⟨v4, r4⟩ := group_roundtrip g4 (hg g4 (by simp))
  obtain ⟨v5, r5⟩ := group_roundtrip g5 (hg g5 (by simp))
  simp [ba2str, ba2strLoop, joinGroups, v0, v1, v2, v3, v4, v5, r0, r1, r2, r3, r4, r5]

/-- C1, witness of the amended statement. -/
theorem ba2str_str2ba_reverses_witness :
    (str2ba "00:1A:7D:DA:71:13".toList).map ba2str
        = some (joinGroups (split ':' "00:1A:7D:DA:71:13".toList).reverse) ∧
      joinGroups (split ':' "00:1A:7D:DA:71:13".toList) = "00:1A:7D:DA:71:13".toList :=
  ba2str_str2ba_reverses "00:1A:7D:DA:71:13".toList (by decide)

/-- C1, counterexample. The well-formed text `01:02:03:04:05:06` is parsed and formatted to
`06:05:04:03:02:01`, not to itself. -/
theorem ba2str_str2ba_not_identity :
    wellFormed "01:02:03:04:05:06".toList = true ∧
      (str2ba "01:02:03:04:05:06".toList).map ba2str = some "06:05:04:03:02:01".toList ∧
      (str2ba "01:02:03:04:05:06".toList).map ba2str ≠ some "01:02:03:04:05:06".toList := by
  decide

/-- C2 (amended). For every well-formed address text `str2ba` stores the groups in display
order: byte `i` of the address is the value of group `i` (the first group is byte 0), and the
service multiplexer is 1. -/
theorem str2ba_display_order (s : List Char) (h : wellFormed s = true) :
    str2ba s = some { Addr := (split ':' s).map hexValue, PSM := 1 } ∧
      ∀ i, i < 6 →
        ((split ':' s).map hexValue).getD i 0 = hexValue ((split ':' s).getD i []) := by
  obtain ⟨g0, g1, g2, g3, g4, g5, hs, hg⟩ := wellFormed_groups s h
  obtain ⟨v0, _⟩ := group_roundtrip g0 (hg g0 (by simp))
  obtain ⟨v1, _⟩ := group_roundtrip g1 (hg g1 (by simp))
  obtain ⟨v2, _⟩ := group_roundtrip g2 (hg g2 (by simp))
  obtain ⟨v3, _⟩ := group_roundtrip g3 (hg g3 (by simp))
  obtain ⟨v4, _⟩ := group_roundtrip g4 (hg g4 (by simp))
  obtain ⟨v5, _⟩ := group_roundtrip g5 (hg g5 (by simp))
  refine ⟨?_, ?_⟩
  · rw [str2ba_of_le_six s (by rw [hs]; simp), hs]
    simp [v0, v1, v2, v3, v4, v5]
  · intro i hi
    rw [hs]
    interval_cases i <;> simp

/-- C2, witness of the amended statement. -/
theorem str2ba_display_order_witness :
    str2ba "00:1A:7D:DA:71:13".toList
        = some { Addr := (split ':' "00:1A:7D:DA:71:13".toList).map hexValue, PSM := 1 } ∧
      ∀ i, i < 6 →
        ((split ':' "00:1A:7D:DA:71:13".toList).map hexValue).getD i 0
          = hexValue ((split ':' "00:1A:7D:DA:71:13".toList).getD i []) :=
  str2ba_display_order "00:1A:7D:DA:71:13".toList (by decide)

/-- C2, counterexample. The text `01:02:03:04:05:06` is parsed to the bytes
`[01,02,03,04,05,06]`, not to `[06,05,04,03,02,01]`: byte 0 is the value of group 0, not of
group 5. -/
theorem str2ba_not_reversed :
    wellFormed "01:02:03:04:05:06".toList = true ∧
      str2ba "01:02:03:04:05:06".toList = some { Addr := [1, 2, 3, 4, 5, 6], PSM := 1 } ∧
      str2ba "01:02:03:04:05:06".toList ≠ some { Addr := [6, 5, 4, 3, 2, 1], PSM := 1 } ∧
      hexValue ((split ':' "01:02:03:04:05:06".toList).getD (5 - 0) []) = 6 := by
  decide

theorem foldl_hex_ge (p : List Char) :
    ∀ n, n ≤ p.foldl (fun n c => n * 16 + hexDigitValue c) n := by
  induction p with
  | nil => intro n; simp
  | cons c cs ih =>
    intro n
    simp only [List.foldl_cons]
    have := ih (n * 16 + hexDigitValue c)
    omega

theorem digitVal_hex (c : Char) (h : isHexDigit c = true) :
    digitVal c = some (hexDigitValue c) ∧ hexDigitValue c < 16 := by
  have e0 : '0'.toNat = 48 := by decide
  have e9 : '9'.toNat = 57 := by decide
  have ea : 'a'.toNat = 97 := by decide
  have ez : 'z'.toNat = 122 := by decide
  have eA : 'A'.toNat = 65 := by decide
  have eZ : 'Z'.toNat = 90 := by decide
  simp only [isHexDigit, Bool.or_eq_true, Bool.and_eq_true, decide_eq_true_eq] at h
  unfold digitVal hexDigitValue
  rw [e0, e9, ea, ez, eA, eZ]
  split_ifs <;> simp <;> omega

theorem digitVal_not_hex (c : Char) (h : isHexDigit c = false) :
    ∀ d, digitVal c = some d → 16 ≤ d := by
  have e0 : '0'.toNat = 48 := by decide
  have e9 : '9'.toNat = 57 := by decide
  have ea : 'a'.toNat = 97 := by decide
  have ez : 'z'.toNat = 122 := by decide
  have eA : 'A'.toNat = 65 := by decide
  have eZ : 'Z'.toNat = 90 := by decide
  have h1 : ¬ (isHexDigit c = true) := by simp [h]
  simp only [isHexDigit, Bool.or_eq_true, Bool.and_eq_true, decide_eq_true_eq] at h1
  unfold digitVal
  rw [e0, e9, ea, ez, eA, eZ]
  intro d
  split_ifs <;> simp <;> omega

/-- The digit loop of `ParseUint`, in terms of the leading hexadecimal digits of the text. -/
theorem parseUintLoop_spec (seg : List Char) :
    ∀ n, n ≤ 255 →
      parseUintLoop seg n =
        if 255 < (seg.takeWhile isHexDigit).foldl (fun n c => n * 16 + hexDigitValue c) n
        then (255, false)
        else if seg.all isHexDigit = true
        then ((seg.takeWhile isHexDigit).foldl (fun n c => n * 16 + hexDigitValue c) n, true)
        else (0, false) := by
  induction seg with
  | nil =>
    intro n hn
    have hn2 : ¬ (255 < n) := by omega
    simp [parseUintLoop, hn2]
  | cons c cs ih =>
    intro n hn
    unfold parseUintLoop
    cases hc : isHexDigit c with
    | true =>
      obtain ⟨d1, d2⟩ := digitVal_hex c hc
      simp only [d1, List.takeWhile_cons, hc, if_true, List.foldl_cons, List.all_cons,
        Bool.true_and]
      have n16 : ¬ (16 ≤ hexDigitValue c) := by omega
      rw [if_neg n16]
      by_cases hov : 255 < n * 16 + hexDigitValue c
      · have := foldl_hex_ge (cs.takeWhile isHexDigit) (n * 16 + hexDigitValue c)
        rw [if_pos hov, if_pos (by omega)]
      · rw [if_neg hov, ih _ (by omega)]
    | false =>
      have hd := digitVal_not_hex c hc
      have hn2 : ¬ (255 < n) := by omega
      simp only [List.takeWhile_cons, hc, List.foldl_nil, List.all_cons, Bool.false_and]
      cases hdv : digitVal c with
      | none => simp [hn2]
      | some d =>
        have := hd d hdv
        simp [hn2, this]

/-- The value `ParseUint(seg, 16, 8)` returns: 255 when the leading hexadecimal digits of the
segment denote more than 255, the value of the segment when it is a hexadecimal byte, and 0
otherwise. -/
theorem parseUint_spec (seg : List Char) :
    (parseUint seg).1 =
      if 255 < hexValue (seg.takeWhile isHexDigit) then 255
      else if validHexByte seg = true then hexValue seg else 0 := by
  cases seg with
  | nil => simp [parseUint, hexValue, validHexByte]
  | cons c cs =>
    have hp : parseUint (c :: cs) = parseUintLoop (c :: cs) 0 := rfl
    rw [hp, parseUintLoop_spec (c :: cs) 0 (by omega)]
    unfold validHexByte hexValue
    by_cases hall : (c :: cs).all isHexDigit = true
    · have htw : (c :: cs).takeWhile isHexDigit = c :: cs := by
        rw [List.takeWhile_eq_self_iff]
        intro x hx
        exact (List.all_eq_true.mp hall) x hx
      rw [htw, hall]
      generalize List.foldl (fun n c => n * 16 + hexDigitValue c) 0 (c :: cs) = v
      by_cases hov : 255 < v
      · simp [hov]
      · have : v < 256 := by omega
        simp [hov, this]
    · have hall2 : (c :: cs).all isHexDigit = false := by simpa using hall
      rw [hall2]
      split_ifs <;> simp_all

/-- The byte stored for one segment, in terms of the text of the segment. -/
theorem segment_byte (seg : List Char) :
    (validHexByte seg = true → toByte (parseUint seg).1 = hexValue seg) ∧
      (validHexByte seg = false → toByte (parseUint seg).1 =
        if 255 < hexValue (seg.takeWhile isHexDigit) then 255 else 0) := by
  have hspec := parseUint_spec seg
  constructor
  · intro hv
    have hv2 := hv
    simp only [validHexByte, Bool.and_eq_true, decide_eq_true_eq] at hv2
    obtain ⟨⟨_, hall⟩, hlt⟩ := hv2
    have htw : seg.takeWhile isHexDigit = seg := by
      rw [List.takeWhile_eq_self_iff]
      intro x hx
      exact (List.all_eq_true.mp hall) x hx
    rw [htw, if_neg (by omega), if_pos hv] at hspec
    rw [hspec]
    unfold toByte
    omega
  · intro hv
    rw [hv] at hspec
    simp only [Bool.false_eq_true, if_false] at hspec
    rw [hspec]
    unfold toByte
    split_ifs <;> rfl

/-- C10 (amended). For every text with at most six `:`-separated segments `str2ba` returns
normally an address of six bytes with service multiplexer 1, in which byte `i` is 0 when the
text has no segment `i`, the value of segment `i` when that segment is a hexadecimal byte, and
for any other segment 255 when its leading hexadecimal digits denote more than 255 (the range
error of `ParseUint`, whose maximum value is stored) and 0 otherwise. -/
theorem str2ba_le_six_segments (s : List Char) (h : (split ':' s).length ≤ 6) :
    ∃ a, str2ba s = some a ∧ a.PSM = 1 ∧ a.Addr.length = 6 ∧
      ∀ i, i < 6 →
        ((split ':' s).length ≤ i → a.Addr.getD i 0 = 0) ∧
        ∀ seg, (split ':' s)[i]? = some seg →
          (validHexByte seg = true → a.Addr.getD i 0 = hexValue seg) ∧
          (validHexByte seg = false → a.Addr.getD i 0 =
            if 255 < hexValue (seg.takeWhile isHexDigit) then 255 else 0) := by
  refine ⟨_, str2ba_of_le_six s h, rfl, ?_, ?_⟩
  · simp; omega
  · intro i hi
    constructor
    · intro hle
      rw [List.getD_append_right _ _ _ _ (by simpa using hle)]
      simp only [List.getD_eq_getElem?_getD, List.getElem?_replicate]
      split_ifs <;> rfl
    · intro seg hseg
      have hlt : i < (split ':' s).length := by
        by_contra hcon
        rw [List.getElem?_eq_none (by omega)] at hseg
        exact absurd hseg (by simp)
      have hget : (List.map (fun t => toByte (parseUint t).1) (split ':' s) ++
          List.replicate (6 - (split ':' s).length) 0).getD i 0
            = toByte (parseUint seg).1 := by
        rw [List.getD_append _ _ _ _ (by simpa using hlt)]
        simp [List.getD_eq_getElem?_getD, hseg]
      simp only [hget]
      exact segment_byte seg

/-- C10, witness of the amended statement: a text of three segments. -/
theorem str2ba_le_six_segments_witness :
    ∃ a, str2ba "100:zz:7".toList = some a ∧ a.PSM = 1 ∧ a.Addr.length = 6 ∧
      ∀ i, i < 6 →
        ((split ':' "100:zz:7".toList).length ≤ i → a.Addr.getD i 0 = 0) ∧
        ∀ seg, (split ':' "100:zz:7".toList)[i]? = some seg →
          (validHexByte seg = true → a.Addr.getD i 0 = hexValue seg) ∧
          (validHexByte seg = false → a.Addr.getD i 0 =
            if 255 < hexValue (seg.takeWhile isHexDigit) then 255 else 0) :=
  str2ba_le_six_segments "100:zz:7".toList (by decide)

/-- C10, counterexample. The text `100` is not a well-formed address and its only segment is
not a hexadecimal byte (its value is 256), yet `str2ba` returns normally with the non-zero
byte 255 stored for it. -/
theorem str2ba_invalid_segment_nonzero :
    wellFormed "100".toList = false ∧
      split ':' "100".toList = ["100".toList] ∧
      validHexByte "100".toList = false ∧
      str2ba "100".toList = some { Addr := [255, 0, 0, 0, 0, 0], PSM := 1 } := by
  decide

/-- A text of seven segments makes `str2ba` panic: the seventh store is out of range. -/
theorem str2ba_seven_segments_panics : str2ba "1:2:3:4:5:6:7".toList = none := by
  decide

/-! ## Theorems: single-precision arithmetic and the loss percentage -/

theorem ilog2Fuel_spec :
    ∀ fuel n, n ≤ fuel → 1 ≤ n →
      2 ^ ilog2Fuel fuel n ≤ n ∧ n < 2 ^ (ilog2Fuel fuel n + 1) := by
  intro fuel
  induction fuel with
  | zero => intro n h1 h2; omega
  | succ f ih =>
    intro n h1 h2
    unfold ilog2Fuel
    split_ifs with hlt
    · have : n = 1 := by omega
      subst this
      simp
    · obtain ⟨a, b⟩ := ih (n / 2) (by omega) (by omega)
      rw [pow_succ] at b
      rw [pow_succ, pow_succ, pow_succ]
      constructor <;> omega

theorem ilog2_spec (n : Nat) (h : 1 ≤ n) : 2 ^ ilog2 n ≤ n ∧ n < 2 ^ (ilog2 n + 1) :=
  ilog2Fuel_spec n n (Nat.le_refl n) h

theorem roundNearestEven_nat (n d : Nat) (hd : 0 < d) :
    2 * (roundNearestEven n d * d) ≤ 2 * n + d ∧ 2 * n ≤ 2 * (roundNearestEven n d * d) + d := by
  have hdm := Nat.div_add_mod n d
  have hml := Nat.mod_lt n hd
  unfold roundNearestEven
  rw [Nat.mul_comm] at hdm
  generalize n / d = q at *
  generalize n % d = r at *
  have e : (q + 1) * d = q * d + d := by ring
  split_ifs <;> (try rw [e]) <;> constructor <;> omega

/-- The rounded quotient is within one half of the exact quotient. -/
theorem roundNearestEven_err (n d : Nat) (hd : 0 < d) :
    |((roundNearestEven n d : Nat) : ℚ) - (n : ℚ) / d| ≤ 1 / 2 := by
  have hdq : (0 : ℚ) < d := by exact_mod_cast hd
  obtain ⟨h1, h2⟩ := roundNearestEven_nat n d hd
  have h1q : (2 * ((roundNearestEven n d : ℚ) * d) : ℚ) ≤ 2 * n + d := by exact_mod_cast h1
  have h2q : (2 * (n : ℚ) : ℚ) ≤ 2 * ((roundNearestEven n d : ℚ) * d) + d := by
    exact_mod_cast h2
  have a : (n : ℚ) / d ≤ (roundNearestEven n d : ℚ) + 1 / 2 := by
    rw [div_le_iff₀ hdq]; nlinarith
  have b : (roundNearestEven n d : ℚ) - 1 / 2 ≤ (n : ℚ) / d := by
    rw [le_div_iff₀ hdq]; nlinarith
  rw [abs_le]
  constructor <;> linarith

theorem two_zpow_toNat (k : Int) :
    (2 : ℚ) ^ k * (2 : ℚ) ^ (-k).toNat = (2 : ℚ) ^ k.toNat := by
  rcases le_total 0 k with hk | hk
  · have h1 : (-k).toNat = 0 := Int.toNat_eq_zero.mpr (by omega)
    have h2 : ((k.toNat : Nat) : Int) = k := Int.toNat_of_nonneg hk
    rw [h1, pow_zero, mul_one, ← zpow_natCast, h2]
  · have h1 : k.toNat = 0 := Int.toNat_eq_zero.mpr hk
    have h2 : (((-k).toNat : Nat) : Int) = -k := Int.toNat_of_nonneg (by omega)
    rw [h1, pow_zero, ← zpow_natCast, h2, ← zpow_add₀ (by norm_num : (2 : ℚ) ≠ 0)]
    simp

/-- The integer part of the binary logarithm: `2 ^ f ≤ n / d < 2 ^ (f + 1)`. -/
theorem floorLog2_spec (n d : Nat) (hn : 0 < n) (hd : 0 < d) :
    (2 : ℚ) ^ floorLog2 n d ≤ (n : ℚ) / d ∧ (n : ℚ) / d < (2 : ℚ) ^ (floorLog2 n d + 1) := by
  have hdq : (0 : ℚ) < d := by exact_mod_cast hd
  obtain ⟨a1, a2⟩ := ilog2_spec n hn
  obtain ⟨b1, b2⟩ := ilog2_spec d hd
  have a1q : (2 : ℚ) ^ (ilog2 n : Int) ≤ n := by rw [zpow_natCast]; exact_mod_cast a1
  have a2q : (n : ℚ) < (2 : ℚ) ^ ((ilog2 n : Int) + 1) := by
    have : (n : ℚ) < (2 : ℚ) ^ (ilog2 n + 1) := by exact_mod_cast a2
    rw [← zpow_natCast] at this
    push_cast at this
    exact this
  have b1q : (2 : ℚ) ^ (ilog2 d : Int) ≤ d := by rw [zpow_natCast]; exact_mod_cast b1
  have b2q : (d : ℚ) < (2 : ℚ) ^ ((ilog2 d : Int) + 1) := by
    have : (d : ℚ) < (2 : ℚ) ^ (ilog2 d + 1) := by exact_mod_cast b2
    rw [← zpow_natCast] at this
    push_cast at this
    exact this
  have h2 : (2 : ℚ) ≠ 0 := by norm_num
  have pa : (0 : ℚ) < (2 : ℚ) ^ (ilog2 n : Int) := by positivity
  have pb : (0 : ℚ) < (2 : ℚ) ^ (ilog2 d : Int) := by positivity
  have pk : (0 : ℚ) < (2 : ℚ) ^ ((ilog2 n : Int) - (ilog2 d : Int)) := by positivity
  -- `2 ^ (a - b) * 2 ^ b = 2 ^ a`
  have hk : (2 : ℚ) ^ ((ilog2 n : Int) - (ilog2 d : Int)) * (2 : ℚ) ^ (ilog2 d : Int)
      = (2 : ℚ) ^ (ilog2 n : Int) := by
    rw [← zpow_add₀ h2]; congr 1; ring
  have e1 : (2 : ℚ) ^ ((ilog2 n : Int) + 1) = 2 * (2 : ℚ) ^ (ilog2 n : Int) := by
    rw [zpow_add₀ h2]; ring
  have e2 : (2 : ℚ) ^ ((ilog2 d : Int) + 1) = 2 * (2 : ℚ) ^ (ilog2 d : Int) := by
    rw [zpow_add₀ h2]; ring
  have e3 : (2 : ℚ) ^ ((ilog2 n : Int) - (ilog2 d : Int) + 1)
      = 2 * (2 : ℚ) ^ ((ilog2 n : Int) - (ilog2 d : Int)) := by
    rw [zpow_add₀ h2]; ring
  have e4 : (2 : ℚ) ^ ((ilog2 n : Int) - (ilog2 d : Int) - 1) * 2
      = (2 : ℚ) ^ ((ilog2 n : Int) - (ilog2 d : Int)) := by
    rw [zpow_sub₀ h2]; field_simp
  have e5 : (2 : ℚ) ^ ((ilog2 n : Int) - (ilog2 d : Int) - 1 + 1)
      = (2 : ℚ) ^ ((ilog2 n : Int) - (ilog2 d : Int)) := by
    congr 1; ring
  rw [e1] at a2q
  rw [e2] at b2q
  -- the test of `floorLog2`, over the rationals
  have htest : (d * 2 ^ ((ilog2 n : Int) - (ilog2 d : Int)).toNat
      ≤ n * 2 ^ ((ilog2 d : Int) - (ilog2 n : Int)).toNat) ↔
      (d : ℚ) * (2 : ℚ) ^ ((ilog2 n : Int) - (ilog2 d : Int)) ≤ n := by
    have hz := two_zpow_toNat ((ilog2 n : Int) - (ilog2 d : Int))
    have hneg : -((ilog2 n : Int) - (ilog2 d : Int)) = (ilog2 d : Int) - (ilog2 n : Int) := by
      ring
    rw [hneg] at hz
    have pz : (0 : ℚ) < (2 : ℚ) ^ ((ilog2 d : Int) - (ilog2 n : Int)).toNat := by positivity
    constructor
    · intro h
      have hq : (d : ℚ) * (2 : ℚ) ^ ((ilog2 n : Int) - (ilog2 d : Int)).toNat
          ≤ n * (2 : ℚ) ^ ((ilog2 d : Int) - (ilog2 n : Int)).toNat := by exact_mod_cast h
      rw [← hz] at hq
      have : (d : ℚ) * (2 : ℚ) ^ ((ilog2 n : Int) - (ilog2 d : Int))
          * (2 : ℚ) ^ ((ilog2 d : Int) - (ilog2 n : Int)).toNat
          ≤ n * (2 : ℚ) ^ ((ilog2 d : Int) - (ilog2 n : Int)).toNat := by linarith
      exact le_of_mul_le_mul_right this pz
    · intro h
      have : (d : ℚ) * (2 : ℚ) ^ ((ilog2 n : Int) - (ilog2 d : Int)).toNat
          ≤ n * (2 : ℚ) ^ ((ilog2 d : Int) - (ilog2 n : Int)).toNat := by
        rw [← hz]
        have := mul_le_mul_of_nonneg_right h pz.le
        linarith
      exact_mod_cast this
  unfold floorLog2
  split_ifs with ht
  · have ht2 := htest.mp ht
    refine ⟨?_, ?_⟩
    · rw [le_div_iff₀ hdq]; linarith
    · rw [div_lt_iff₀ hdq, e3]; nlinarith
  · have ht2 : ¬ ((d : ℚ) * (2 : ℚ) ^ ((ilog2 n : Int) - (ilog2 d : Int)) ≤ n) :=
      fun h => ht (htest.mpr h)
    refine ⟨?_, ?_⟩
    · rw [le_div_iff₀ hdq]; nlinarith
    · rw [div_lt_iff₀ hdq, e5]; linarith

/-- Rounding to `float32` keeps the sign and changes a positive quotient by at most the
fraction `2^-24` of itself. -/
theorem f32Round_err (neg : Bool) (n d : Nat) (hn : 0 < n) (hd : 0 < d) :
    (f32Round neg n d).neg = neg ∧
      |((f32Round neg n d).mant : ℚ) * (2 : ℚ) ^ (f32Round neg n d).exp - (n : ℚ) / d|
        ≤ (n : ℚ) / d / 16777216 := by
  obtain ⟨lo, _⟩ := floorLog2_spec n d hn hd
  have hne : n ≠ 0 := by omega
  unfold f32Round
  rw [if_neg hne]
  refine ⟨rfl, ?_⟩
  simp only
  generalize floorLog2 n d = f at lo ⊢
  have h2 : (2 : ℚ) ≠ 0 := by norm_num
  have hdq : (0 : ℚ) < d := by exact_mod_cast hd
  have hE : (0 : ℚ) < (2 : ℚ) ^ (f - 23) := by positivity
  have hden : 0 < d * 2 ^ (f - 23).toNat := by positivity
  have hr := roundNearestEven_err (n * 2 ^ (23 - f).toNat) (d * 2 ^ (f - 23).toNat) hden
  generalize roundNearestEven (n * 2 ^ (23 - f).toNat) (d * 2 ^ (f - 23).toNat) = m at hr ⊢
  have hz := two_zpow_toNat (f - 23)
  have hneg : -(f - 23) = 23 - f := by ring
  rw [hneg] at hz
  have hp1 : (0 : ℚ) < (2 : ℚ) ^ (23 - f).toNat := by positivity
  have hp2 : (0 : ℚ) < (2 : ℚ) ^ (f - 23).toNat := by positivity
  -- the scaled quotient is the quotient divided by `2 ^ e`
  have hscaled : (((n * 2 ^ (23 - f).toNat : Nat) : ℚ)) / ((d * 2 ^ (f - 23).toNat : Nat) : ℚ)
      = (n : ℚ) / d / (2 : ℚ) ^ (f - 23) := by
    push_cast
    rw [← hz]
    field_simp
    ring
  rw [hscaled] at hr
  have hE2 : (2 : ℚ) ^ (f - 23) = (2 : ℚ) ^ f / 8388608 := by
    rw [zpow_sub₀ h2]; norm_num
  have hEle : (2 : ℚ) ^ (f - 23) ≤ (n : ℚ) / d / 8388608 := by
    rw [hE2]; exact div_le_div_of_nonneg_right lo (by norm_num)
  have hmul : (m : ℚ) * (2 : ℚ) ^ (f - 23) - (n : ℚ) / d
      = ((m : ℚ) - (n : ℚ) / d / (2 : ℚ) ^ (f - 23)) * (2 : ℚ) ^ (f - 23) := by
    field_simp
    ring
  rw [hmul, abs_mul, abs_of_pos hE]
  calc |(m : ℚ) - (n : ℚ) / d / (2 : ℚ) ^ (f - 23)| * (2 : ℚ) ^ (f - 23)
      ≤ 1 / 2 * (2 : ℚ) ^ (f - 23) := by
        exact mul_le_mul_of_nonneg_right hr hE.le
    _ ≤ 1 / 2 * ((n : ℚ) / d / 8388608) := by
        exact mul_le_mul_of_nonneg_left hEle (by norm_num)
    _ = (n : ℚ) / d / 16777216 := by ring

/-- The error of the two conversions and two divisions of `stat`, over the rationals: with
every operation exact up to the fraction `u` of its result, the computed quotient `Y` lies
between the exact percentage times `((1-u)/(1+u))^2` and times `((1+u)/(1-u))^2`. -/
theorem approx_chain (u s d A X D Y : ℚ) (hu0 : 0 ≤ u) (hu1 : u < 1) (hs : 0 < s)
    (hd : 0 ≤ d) (hA : |A - s| ≤ s * u) (hX : |X - A / 100| ≤ A / 100 * u)
    (hD : |D - d| ≤ d * u) (hY : |Y - D / X| ≤ D / X * u) :
    100 * d / s * ((1 - u) ^ 2 / (1 + u) ^ 2) ≤ Y ∧
      Y ≤ 100 * d / s * ((1 + u) ^ 2 / (1 - u) ^ 2) := by
  rw [abs_le] at hA hX hD hY
  have h1u : 0 < 1 - u := by linarith
  have h1p : 0 < 1 + u := by linarith
  have hAlo : s * (1 - u) ≤ A := by linarith
  have hAhi : A ≤ s * (1 + u) := by linarith
  have hApos : 0 < A := lt_of_lt_of_le (mul_pos hs h1u) hAlo
  have hXlo : s * (1 - u) ^ 2 / 100 ≤ X := by
    have : A / 100 * (1 - u) ≤ X := by linarith
    have h2 : s * (1 - u) / 100 * (1 - u) ≤ A / 100 * (1 - u) := by
      apply mul_le_mul_of_nonneg_right _ h1u.le
      linarith
    calc s * (1 - u) ^ 2 / 100 = s * (1 - u) / 100 * (1 - u) := by ring
      _ ≤ A / 100 * (1 - u) := h2
      _ ≤ X := this
  have hXhi : X ≤ s * (1 + u) ^ 2 / 100 := by
    have : X ≤ A / 100 * (1 + u) := by linarith
    have h2 : A / 100 * (1 + u) ≤ s * (1 + u) / 100 * (1 + u) := by
      apply mul_le_mul_of_nonneg_right _ h1p.le
      linarith
    calc X ≤ A / 100 * (1 + u) := this
      _ ≤ s * (1 + u) / 100 * (1 + u) := h2
      _ = s * (1 + u) ^ 2 / 100 := by ring
  have hXlopos : 0 < s * (1 - u) ^ 2 / 100 := by positivity
  have hXpos : 0 < X := lt_of_lt_of_le hXlopos hXlo
  have hDlo : d * (1 - u) ≤ D := by linarith
  have hDhi : D ≤ d * (1 + u) := by linarith
  have hDnn : 0 ≤ D := le_trans (mul_nonneg hd h1u.le) hDlo
  have hQnn : 0 ≤ D / X := div_nonneg hDnn hXpos.le
  have hQhi : D / X ≤ d * (1 + u) / (s * (1 - u) ^ 2 / 100) :=
    div_le_div₀ (mul_nonneg hd h1p.le) hDhi hXlopos hXlo
  have hQlo : d * (1 - u) / (s * (1 + u) ^ 2 / 100) ≤ D / X :=
    div_le_div₀ hDnn hDlo hXpos hXhi
  have hYlo : D / X * (1 - u) ≤ Y := by linarith
  have hYhi : Y ≤ D / X * (1 + u) := by linarith
  have hsne : s ≠ 0 := hs.ne'
  have h1une : 1 - u ≠ 0 := h1u.ne'
  have h1pne : 1 + u ≠ 0 := h1p.ne'
  constructor
  · calc 100 * d / s * ((1 - u) ^ 2 / (1 + u) ^ 2)
        = d * (1 - u) / (s * (1 + u) ^ 2 / 100) * (1 - u) := by
          field_simp; ring
      _ ≤ D / X * (1 - u) := mul_le_mul_of_nonneg_right hQlo h1u.le
      _ ≤ Y := hYlo
  · calc Y ≤ D / X * (1 + u) := hYhi
      _ ≤ d * (1 + u) / (s * (1 - u) ^ 2 / 100) * (1 + u) :=
          mul_le_mul_of_nonneg_right hQhi h1p.le
      _ = 100 * d / s * ((1 + u) ^ 2 / (1 - u) ^ 2) := by
          field_simp; ring

/-- The conversion of a positive `int` to `float32`: not negative, not zero, exact up to the
fraction `2^-24`. -/
theorem f32OfInt_pos (i : Int) (hi : 0 < i) :
    (f32OfInt i).neg = false ∧ 0 < (f32OfInt i).mant ∧
      |(f32OfInt i).mag - (i : ℚ)| ≤ (i : ℚ) * (1 / 16777216) := by
  have hn : 0 < i.natAbs := by omega
  obtain ⟨h1, h2⟩ := f32Round_err (decide (i < 0)) i.natAbs 1 hn (by norm_num)
  have hcast : ((i.natAbs : Nat) : ℚ) = (i : ℚ) := by
    rw [← Int.cast_natCast, Int.natAbs_of_nonneg hi.le]
  have hiq : (0 : ℚ) < i := by exact_mod_cast hi
  simp only [Nat.cast_one, div_one, hcast] at h2
  have hneg : decide (i < 0) = false := by
    rw [decide_eq_false_iff_not]; omega
  unfold f32OfInt F32.mag
  refine ⟨?_, ?_, ?_⟩
  · rw [h1, hneg]
  · by_contra hcon
    have hz : (f32Round (decide (i < 0)) i.natAbs 1).mant = 0 := by omega
    rw [hz, abs_le] at h2
    simp only [Nat.cast_zero, zero_mul, zero_sub] at h2
    linarith [h2.1]
  · calc _ ≤ (i : ℚ) / 16777216 := h2
      _ = (i : ℚ) * (1 / 16777216) := by ring

/-- The quotient of two positive `float32` values: not negative, exact up to the fraction
`2^-24`. -/
theorem f32Div_pos (x y : F32) (hxn : x.neg = false) (hyn : y.neg = false)
    (hx : 0 < x.mant) (hy : 0 < y.mant) :
    (f32Div x y).neg = false ∧
      |(f32Div x y).mag - x.mag / y.mag| ≤ x.mag / y.mag * (1 / 16777216) := by
  have hn : 0 < x.mant * 2 ^ (x.exp - y.exp).toNat := by positivity
  have hd : 0 < y.mant * 2 ^ (y.exp - x.exp).toNat := by positivity
  obtain ⟨h1, h2⟩ := f32Round_err (x.neg != y.neg) _ _ hn hd
  have hz := two_zpow_toNat (x.exp - y.exp)
  have hneg : -(x.exp - y.exp) = y.exp - x.exp := by ring
  rw [hneg] at hz
  have h2ne : (2 : ℚ) ≠ 0 := by norm_num
  have hxq : (0 : ℚ) < x.mant := by exact_mod_cast hx
  have hyq : (0 : ℚ) < y.mant := by exact_mod_cast hy
  have hratio : ((x.mant * 2 ^ (x.exp - y.exp).toNat : Nat) : ℚ)
      / ((y.mant * 2 ^ (y.exp - x.exp).toNat : Nat) : ℚ) = x.mag / y.mag := by
    unfold F32.mag
    push_cast
    rw [← hz, zpow_sub₀ h2ne]
    have p1 : (0 : ℚ) < (2 : ℚ) ^ (y.exp - x.exp).toNat := by positivity
    have p2 : (0 : ℚ) < (2 : ℚ) ^ y.exp := by positivity
    have p3 : (0 : ℚ) < (2 : ℚ) ^ x.exp := by positivity
    field_simp
    ring
  rw [hratio] at h2
  unfold f32Div
  refine ⟨?_, ?_⟩
  · rw [h1, hxn, hyn]; rfl
  · unfold F32.mag at h2 ⊢
    calc _ ≤ _ := h2
      _ = _ := by ring

/-- The quotient of zero by a `float32` value is zero. -/
theorem f32Div_zero (x y : F32) (hxn : x.neg = false) (hyn : y.neg = false)
    (hx : x.mant = 0) : f32ToInt (f32Div x y) = 0 := by
  unfold f32Div f32Round
  simp [hx, hxn, hyn, f32ToInt]

/-- The conversion of a `float32` that is not negative to `int` is the integer part of its
magnitude. -/
theorem f32ToInt_floor (x : F32) (hxn : x.neg = false) :
    ((f32ToInt x : Int) : ℚ) ≤ x.mag ∧ x.mag < ((f32ToInt x : Int) : ℚ) + 1 := by
  have hz := two_zpow_toNat x.exp
  have hp : 0 < 2 ^ (-x.exp).toNat := by positivity
  have hpq : (0 : ℚ) < (2 : ℚ) ^ (-x.exp).toNat := by positivity
  have hdm := Nat.div_add_mod (x.mant * 2 ^ x.exp.toNat) (2 ^ (-x.exp).toNat)
  have hml := Nat.mod_lt (x.mant * 2 ^ x.exp.toNat) hp
  have hmag : x.mag * (2 : ℚ) ^ (-x.exp).toNat = ((x.mant * 2 ^ x.exp.toNat : Nat) : ℚ) := by
    unfold F32.mag
    push_cast
    rw [← hz]
    ring
  unfold f32ToInt
  simp only [hxn, Bool.false_eq_true, if_false]
  generalize x.mant * 2 ^ x.exp.toNat = a at hdm hml hmag ⊢
  generalize hb : 2 ^ (-x.exp).toNat = b at hdm hml hp ⊢
  have hbq : (2 : ℚ) ^ (-x.exp).toNat = (b : ℚ) := by exact_mod_cast congrArg (fun n : Nat => (n : ℚ)) hb
  rw [hbq] at hmag hpq
  have hq : ((b : ℚ)) * ((a / b : Nat) : ℚ) + ((a % b : Nat) : ℚ) = (a : ℚ) := by
    exact_mod_cast congrArg (fun n : Nat => (n : ℚ)) hdm
  have hr0 : (0 : ℚ) ≤ ((a % b : Nat) : ℚ) := by positivity
  have hr1 : ((a % b : Nat) : ℚ) < (b : ℚ) := by exact_mod_cast hml
  simp only [Int.cast_natCast]
  constructor
  · by_contra hcon
    push_neg at hcon
    have := mul_lt_mul_of_pos_right hcon hpq
    nlinarith
  · by_contra hcon
    push_neg at hcon
    have := mul_le_mul_of_nonneg_right hcon hpq.le
    nlinarith

theorem wrapInt_of_range (x : Int) (h1 : -9223372036854775808 ≤ x)
    (h2 : x < 9223372036854775808) : wrapInt x = x := by
  unfold wrapInt
  omega

theorem mag_pos_mant (x : F32) (h : 0 < x.mag) : 0 < x.mant := by
  by_contra hcon
  have hz : x.mant = 0 := by omega
  unfold F32.mag at h
  rw [hz] at h
  simp at h

/-- The single-precision quotient of `stat`: the loss percentage is the integer part of a
rational `Y` that differs from the exact percentage by at most the fraction `3 / 10^7` of
it. -/
theorem lossPercent_quotient (s r : Int) (hs : 0 < s) (hs2 : s < 9223372036854775808)
    (hr0 : 0 ≤ r) (hr : r ≤ s) :
    ∃ Y : ℚ, ((lossPercent s r : Int) : ℚ) ≤ Y ∧ Y < ((lossPercent s r : Int) : ℚ) + 1 ∧
      |Y - exactPercent s r| ≤ exactPercent s r * (3 / 10000000) := by
  have hsne : s ≠ 0 := by omega
  have hw : wrapInt (s - r) = s - r := wrapInt_of_range _ (by omega) (by omega)
  have hsq : (0 : ℚ) < s := by exact_mod_cast hs
  unfold lossPercent
  rw [if_pos hsne, hw]
  obtain ⟨an, am, aerr⟩ := f32OfInt_pos s hs
  have hc : f32OfInt 100 = { neg := false, mant := 13107200, exp := -17 } := by decide
  have hcmag : (f32OfInt 100).mag = 100 := by
    rw [hc]; unfold F32.mag; norm_num
  obtain ⟨xn, xerr⟩ := f32Div_pos (f32OfInt s) (f32OfInt 100) an (by rw [hc]) am
    (by rw [hc]; norm_num)
  rw [hcmag] at xerr
  have hApos : 0 < (f32OfInt s).mag := by
    rw [abs_le] at aerr
    nlinarith [aerr.1]
  have hXpos : 0 < (f32Div (f32OfInt s) (f32OfInt 100)).mag := by
    rw [abs_le] at xerr
    nlinarith [xerr.1]
  have xm := mag_pos_mant _ hXpos
  rcases eq_or_lt_of_le (show (0 : Int) ≤ s - r by omega) with hd0 | hdpos
  · -- nothing lost: the quotient is zero
    rw [← hd0]
    have h0 : f32OfInt 0 = { neg := false, mant := 0, exp := 0 } := by decide
    have hz := f32Div_zero (f32OfInt 0) (f32Div (f32OfInt s) (f32OfInt 100))
      (by rw [h0]) xn (by rw [h0])
    rw [hz]
    have he : exactPercent s r = 0 := by
      unfold exactPercent; rw [← hd0]; simp
    refine ⟨0, by simp, by simp, ?_⟩
    rw [he]; simp
  · obtain ⟨dn, dm, derr⟩ := f32OfInt_pos (s - r) hdpos
    obtain ⟨yn, yerr⟩ := f32Div_pos (f32OfInt (s - r))
      (f32Div (f32OfInt s) (f32OfInt 100)) dn xn dm xm
    obtain ⟨f1, f2⟩ := f32ToInt_floor _ yn
    have hdq : (0 : ℚ) ≤ ((s - r : Int) : ℚ) := by exact_mod_cast hdpos.le
    obtain ⟨c1, c2⟩ := approx_chain (1 / 16777216) (s : ℚ) ((s - r : Int) : ℚ) _ _ _ _
      (by norm_num) (by norm_num) hsq hdq aerr xerr derr yerr
    have hp : exactPercent s r = 100 * ((s - r : Int) : ℚ) / (s : ℚ) := by
      unfold exactPercent; ring
    have hpnn : 0 ≤ exactPercent s r := by
      rw [hp]; positivity
    refine ⟨_, f1, f2, ?_⟩
    rw [← hp] at c1 c2
    rw [abs_le]
    constructor
    · have : exactPercent s r * (1 - 3 / 10000000)
          ≤ exactPercent s r * ((1 - 1 / 16777216) ^ 2 / (1 + 1 / 16777216) ^ 2) :=
        mul_le_mul_of_nonneg_left (by norm_num) hpnn
      linarith
    · have : exactPercent s r * ((1 + 1 / 16777216) ^ 2 / (1 - 1 / 16777216) ^ 2)
          ≤ exactPercent s r * (1 + 3 / 10000000) :=
        mul_le_mul_of_nonneg_left (by norm_num) hpnn
      linarith

/-- How far the single-precision arithmetic of `stat` can take the result from the integer
part of `(sent - received) * 100 / sent`: by at most 1, and not at all for `sent ≤ 32768`
when the exact percentage is not a whole number. -/
theorem lossPercent_bounds (s r : Int) :
    lossPercent 0 r = 0 ∧
      (0 < s → s < 9223372036854775808 → 0 ≤ r → r ≤ s →
        100 * (s - r) / s - 1 ≤ lossPercent s r ∧
        lossPercent s r ≤ 100 * (s - r) / s + 1 ∧
        (s ≤ 32768 → lossPercent s r ≤ 100 * (s - r) / s) ∧
        (s ≤ 32768 → 100 * (s - r) % s ≠ 0 → lossPercent s r = 100 * (s - r) / s)) := by
  refine ⟨by simp [lossPercent], ?_⟩
  intro hs hs2 hr0 hr
  obtain ⟨Y, y1, y2, yerr⟩ := lossPercent_quotient s r hs hs2 hr0 hr
  generalize lossPercent s r = L at y1 y2 ⊢
  have hsq : (0 : ℚ) < s := by exact_mod_cast hs
  have hdm := Int.ediv_add_emod (100 * (s - r)) s
  have ht0 := Int.emod_nonneg (100 * (s - r)) (show s ≠ 0 by omega)
  have ht1 := Int.emod_lt_of_pos (100 * (s - r)) hs
  generalize 100 * (s - r) / s = k at hdm ⊢
  generalize ht : 100 * (s - r) % s = t at hdm ht0 ht1 ⊢
  have hq : (s : ℚ) * (k : ℚ) + (t : ℚ) = 100 * ((s : ℚ) - (r : ℚ)) := by
    exact_mod_cast congrArg (fun z : Int => (z : ℚ)) hdm
  have ht0q : (0 : ℚ) ≤ t := by exact_mod_cast ht0
  have ht1q : (t : ℚ) ≤ s - 1 := by
    have : t ≤ s - 1 := by omega
    exact_mod_cast this
  have hrq : (0 : ℚ) ≤ r := by exact_mod_cast hr0
  have hp : exactPercent s r * s = s * k + t := by
    unfold exactPercent
    push_cast
    rw [hq]
    field_simp
    ring
  have hrs : (r : ℚ) ≤ s := by exact_mod_cast hr
  generalize exactPercent s r = p at yerr hp
  have hpk : (k : ℚ) ≤ p := by
    by_contra hcon
    push_neg at hcon
    have := mul_lt_mul_of_pos_right hcon hsq
    nlinarith
  have hp100 : p ≤ 100 := by
    by_contra hcon
    push_neg at hcon
    have := mul_lt_mul_of_pos_right hcon hsq
    nlinarith
  have hp0 : 0 ≤ p := by
    by_contra hcon
    push_neg at hcon
    have := mul_lt_mul_of_pos_right hcon hsq
    nlinarith
  have hpk1 : p < (k : ℚ) + 1 := by
    by_contra hcon
    push_neg at hcon
    have := mul_le_mul_of_nonneg_right hcon hsq.le
    nlinarith
  rw [abs_le] at yerr
  obtain ⟨e1, e2⟩ := yerr
  have hYlo : p - 3 / 100000 ≤ Y := by nlinarith
  have hYhi : Y ≤ p + 3 / 100000 := by nlinarith
  refine ⟨?_, ?_, ?_, ?_⟩
  · by_contra hcon
    have h1 : L ≤ k - 2 := by omega
    have h1q : (L : ℚ) ≤ (k : ℚ) - 2 := by exact_mod_cast h1
    linarith
  · by_contra hcon
    have h1 : k + 2 ≤ L := by omega
    have h1q : (k : ℚ) + 2 ≤ (L : ℚ) := by exact_mod_cast h1
    linarith
  · intro hsmall
    by_contra hcon
    have h1 : k + 1 ≤ L := by omega
    have h1q : (k : ℚ) + 1 ≤ (L : ℚ) := by exact_mod_cast h1
    have hsq2 : (s : ℚ) ≤ 32768 := by exact_mod_cast hsmall
    have hYs : Y * s ≤ (p + 3 / 100000) * s := mul_le_mul_of_nonneg_right hYhi hsq.le
    have hLs : ((k : ℚ) + 1) * s ≤ Y * s :=
      mul_le_mul_of_nonneg_right (le_trans h1q y1) hsq.le
    nlinarith
  · intro hsmall hne
    have hsq2 : (s : ℚ) ≤ 32768 := by exact_mod_cast hsmall
    have hle : L ≤ k := by
      by_contra hcon
      have h1 : k + 1 ≤ L := by omega
      have h1q : (k : ℚ) + 1 ≤ (L : ℚ) := by exact_mod_cast h1
      have hYs : Y * s ≤ (p + 3 / 100000) * s := mul_le_mul_of_nonneg_right hYhi hsq.le
      have hLs : ((k : ℚ) + 1) * s ≤ Y * s :=
        mul_le_mul_of_nonneg_right (le_trans h1q y1) hsq.le
      nlinarith
    have hge : k ≤ L := by
      by_contra hcon
      have h1 : L + 1 ≤ k := by omega
      have h1q : (L : ℚ) + 1 ≤ (k : ℚ) := by exact_mod_cast h1
      have ht1' : (1 : ℚ) ≤ t := by
        have : 1 ≤ t := by omega
        exact_mod_cast this
      have hYs : (p - 3 / 100000) * s ≤ Y * s := mul_le_mul_of_nonneg_right hYlo hsq.le
      have hLs : Y * s ≤ (k : ℚ) * s :=
        mul_le_mul_of_nonneg_right (le_trans y2.le h1q) hsq.le
      nlinarith
    omega

/-- The integer part of the exact percentage, in integer arithmetic. -/
theorem exactPercent_floor (s r : Int) (hs : 0 < s) :
    ⌊exactPercent s r⌋ = 100 * (s - r) / s := by
  have hsq : (0 : ℚ) < s := by exact_mod_cast hs
  have hdm := Int.ediv_add_emod (100 * (s - r)) s
  have ht0 := Int.emod_nonneg (100 * (s - r)) (show s ≠ 0 by omega)
  have ht1 := Int.emod_lt_of_pos (100 * (s - r)) hs
  generalize 100 * (s - r) / s = k at hdm ⊢
  generalize 100 * (s - r) % s = t at hdm ht0 ht1
  have hq : (s : ℚ) * (k : ℚ) + (t : ℚ) = 100 * ((s : ℚ) - (r : ℚ)) := by
    exact_mod_cast congrArg (fun z : Int => (z : ℚ)) hdm
  have ht0q : (0 : ℚ) ≤ t := by exact_mod_cast ht0
  have ht1q : (t : ℚ) < s := by exact_mod_cast ht1
  have hp : exactPercent s r = k + t / s := by
    unfold exactPercent
    push_cast
    field_simp
    linarith
  rw [Int.floor_eq_iff, hp]
  constructor
  · have : 0 ≤ (t : ℚ) / s := div_nonneg ht0q hsq.le
    linarith
  · have : (t : ℚ) / s < 1 := by
      rw [div_lt_one hsq]
      exact ht1q
    linarith

/-- C4 (amended). The loss percentage computed by `stat` is 0 when `sent = 0`, and 0 when
`sent > 0` and `received = sent`. For every `0 < sent ≤ 32768` and `0 ≤ received ≤ sent`
whose exact percentage `(sent - received) / sent * 100` is not a whole number (`sent` does
not divide `100 * (sent - received)`), it is that percentage with the fraction discarded
(truncated towards zero), not rounded to the nearest integer. -/
theorem lossPercent_truncated (s r : Int) :
    lossPercent 0 r = 0 ∧
      (0 < s → s < 9223372036854775808 → lossPercent s s = 0) ∧
      (0 < s → s ≤ 32768 → 0 ≤ r → r ≤ s → 100 * (s - r) % s ≠ 0 →
        lossPercent s r = ⌊exactPercent s r⌋ ∧ lossPercent s r = 100 * (s - r) / s) := by
  refine ⟨(lossPercent_bounds s r).1, ?_, ?_⟩
  · intro hs hs2
    obtain ⟨Y, y1, y2, yerr⟩ := lossPercent_quotient s s hs hs2 hs.le le_rfl
    have he : exactPercent s s = 0 := by simp [exactPercent]
    rw [he, zero_mul, sub_zero] at yerr
    have hY : Y = 0 := abs_eq_zero.mp (le_antisymm yerr (abs_nonneg Y))
    rw [hY] at y1 y2
    have h1 : lossPercent s s ≤ 0 := by exact_mod_cast y1
    have h2 : 0 < lossPercent s s + 1 := by exact_mod_cast y2
    omega
  · intro hs hsmall hr0 hr hne
    have h := ((lossPercent_bounds s r).2 hs (by omega) hr0 hr).2.2.2 hsmall hne
    exact ⟨by rw [exactPercent_floor s r hs]; exact h, h⟩

/-- C4, witness of the amended statement: 7 sent, 2 received, the exact percentage being
`500/7`, between 71 and 72. -/
theorem lossPercent_truncated_witness :
    (lossPercent 7 2 = ⌊exactPercent 7 2⌋ ∧ lossPercent 7 2 = 100 * ((7 : Int) - 2) / 7) ∧
      lossPercent 7 2 = 71 ∧ lossPercent 7 7 = 0 :=
  ⟨(lossPercent_truncated 7 2).2.2 (by decide) (by decide) (by decide) (by decide) (by decide),
    by decide, (lossPercent_truncated 7 2).2.1 (by decide) (by decide)⟩

/-- C4, counterexample. With 3 sent and 1 received the exact percentage is `200/3`, whose
nearest integer is 67, and `stat` computes 66. -/
theorem lossPercent_not_nearest :
    lossPercent 3 1 = 66 ∧ roundNearest (exactPercent 3 1) = 67 ∧
      lossPercent 3 1 ≠ roundNearest (exactPercent 3 1) := by
  have h1 : lossPercent 3 1 = 66 := by decide
  have h2 : roundNearest (exactPercent 3 1) = 67 := by
    simp [roundNearest, exactPercent]; norm_num [round_eq]
  refine ⟨h1, h2, ?_⟩
  rw [h1, h2]
  decide

/-- With 9 sent and none received `stat` computes 99, the exact percentage being 100: the
quotient `float32(9) / 100` is rounded up, so `9 / 0.09` falls just below 100. -/
theorem lossPercent_nine_sent_none_received :
    lossPercent 9 0 = 99 ∧ exactPercent 9 0 = 100 := by
  refine ⟨by decide, ?_⟩
  simp [exactPercent]

/-! ## Theorems: the echo frame -/

theorem fillPayload_eq (size : Nat) (buf : List Nat) :
    fillPayload size buf =
      (List.range size).foldl (fun b i => b.set (4 + i) (toByte (i % 40 + 65))) buf := rfl

theorem fillPayload_length (size : Nat) (buf : List Nat) :
    (fillPayload size buf).length = buf.length := by
  rw [fillPayload_eq]
  induction size with
  | zero => rfl
  | succ n ih =>
    rw [List.range_succ, List.foldl_append]
    simp only [List.foldl_cons, List.foldl_nil, List.length_set]
    exact ih

/-- The payload loop stores `toByte (i % 40 + 65)` at the indices `4 + i`, `i < size`, and
leaves every other byte as it was. -/
theorem fillPayload_getD (size : Nat) (buf : List Nat) (j : Nat) (hlen : 4 + size ≤ buf.length) :
    (fillPayload size buf).getD j 0 =
      if 4 ≤ j ∧ j < 4 + size then toByte ((j - 4) % 40 + 65) else buf.getD j 0 := by
  induction size with
  | zero =>
    have : ¬ (4 ≤ j ∧ j < 4 + 0) := by omega
    rw [if_neg this]
    rfl
  | succ n ih =>
    have ih2 := ih (by omega)
    have hl := fillPayload_length n buf
    have hstep : fillPayload (n + 1) buf
        = (fillPayload n buf).set (4 + n) (toByte (n % 40 + 65)) := by
      rw [fillPayload_eq, fillPayload_eq, List.range_succ, List.foldl_append]
      rfl
    rw [hstep, List.getD_eq_getElem?_getD, List.getElem?_set]
    by_cases hj : 4 + n = j
    · subst hj
      have h1 : 4 + n < (fillPayload n buf).length := by rw [hl]; omega
      have h2 : 4 ≤ 4 + n ∧ 4 + n < 4 + (n + 1) := by omega
      have h3 : 4 + n - 4 = n := by omega
      rw [if_pos rfl, if_pos h1, if_pos h2, h3]
      rfl
    · rw [if_neg hj, ← List.getD_eq_getElem?_getD, ih2]
      by_cases hr : 4 ≤ j ∧ j < 4 + n
      · have : 4 ≤ j ∧ j < 4 + (n + 1) := by omega
        rw [if_pos hr, if_pos this]
      · have : ¬ (4 ≤ j ∧ j < 4 + (n + 1)) := by omega
        rw [if_neg hr, if_neg this]

/-- The layout of the frame built from a zeroed buffer of `4 + size` bytes. -/
theorem initSendBuff_layout (size id : Nat) :
    ((initSendBuff size (List.replicate (4 + size) 0)).set 1 id).length = 4 + size ∧
      ((initSendBuff size (List.replicate (4 + size) 0)).set 1 id).getD 0 0 = 8 ∧
      ((initSendBuff size (List.replicate (4 + size) 0)).set 1 id).getD 1 0 = id ∧
      ((initSendBuff size (List.replicate (4 + size) 0)).set 1 id).getD 2 0 = size % 256 ∧
      ((initSendBuff size (List.replicate (4 + size) 0)).set 1 id).getD 3 0 = 0 ∧
      ∀ i, i < size →
        ((initSendBuff size (List.replicate (4 + size) 0)).set 1 id).getD (4 + i) 0
          = 65 + i % 40 := by
  have hl : (fillPayload size (List.replicate (4 + size) 0)).length = 4 + size := by
    rw [fillPayload_length]; simp
  unfold initSendBuff
  refine ⟨?_, ?_, ?_, ?_, ?_, ?_⟩
  · simp [hl]
  · simp [List.getD_eq_getElem?_getD, List.getElem?_set, hl, l2CAPEchoRequest]
  · have a1 : 1 < 4 + size := by omega
    simp [List.getD_eq_getElem?_getD, List.getElem?_set, hl, a1]
  · have a2 : 2 < 4 + size := by omega
    simp [List.getD_eq_getElem?_getD, List.getElem?_set, hl, toByte, a2]
  · have a3 : 3 < 4 + size := by omega
    simp [List.getD_eq_getElem?_getD, List.getElem?_set, hl, a3]
  · intro i hi
    have h4 : ¬ (1 = 4 + i) := by omega
    have h5 : ¬ (3 = 4 + i) := by omega
    have h6 : ¬ (2 = 4 + i) := by omega
    have h7 : ¬ (0 = 4 + i) := by omega
    rw [List.getD_eq_getElem?_getD, List.getElem?_set, if_neg h4, List.getElem?_set,
      if_neg h5, List.getElem?_set, if_neg h6, List.getElem?_set, if_neg h7,
      ← List.getD_eq_getElem?_getD, fillPayload_getD _ _ _ (by simp)]
    have h8 : 4 ≤ 4 + i ∧ 4 + i < 4 + size := by omega
    have h9 : 4 + i - 4 = i := by omega
    rw [if_pos h8, h9]
    unfold toByte
    omega

/-- Every act of the wait loop is a `Poll` with the configured timeout, a `Recvfrom`, or a
message on the error stream. -/
theorem waitLoop_acts (timeout : Int) (id : Nat) (waits : List Wait) :
    ∀ (buf : List Nat) (a : Act), a ∈ (waitLoop timeout id buf waits).trace →
      a = .poll (pollTimeout timeout) ∨ a = .recvfrom ∨ ∃ m, a = .stderr m := by
  induction waits with
  | nil => intro buf a h; simp [waitLoop] at h; simp [h]
  | cons w rest ih =>
    intro buf a h
    cases w with
    | pollErr => simp [waitLoop] at h; rcases h with h | h <;> simp [h]
    | pollTimeout => simp [waitLoop] at h; simp [h]
    | recvErr => simp [waitLoop] at h; rcases h with h | h | h <;> simp [h]
    | recvData data =>
      unfold waitLoop at h
      split_ifs at h
      · simp at h; rcases h with h | h | h <;> simp [h]
      · simp only [List.mem_cons] at h
        rcases h with h | h | h
        · simp [h]
        · simp [h]
        · exact ih _ a h
      · simp at h; rcases h with h | h <;> simp [h]
      · simp at h; rcases h with h | h | h <;> simp [h]
      · simp only [List.mem_cons] at h
        rcases h with h | h | h
        · simp [h]
        · simp [h]
        · exact ih _ a h

theorem writesOf_waitLoop (timeout : Int) (id : Nat) (buf : List Nat) (waits : List Wait) :
    writesOf (waitLoop timeout id buf waits).trace = [] := by
  unfold writesOf
  rw [List.filterMap_eq_nil_iff]
  intro a ha
  rcases waitLoop_acts timeout id waits buf a ha with h | h | ⟨m, h⟩ <;> rw [h]

theorem offsetsOf_waitLoop (timeout : Int) (id : Nat) (buf : List Nat) (waits : List Wait) :
    offsetsOf (waitLoop timeout id buf waits).trace = [] := by
  unfold offsetsOf
  rw [List.filterMap_eq_nil_iff]
  intro a ha
  rcases waitLoop_acts timeout id waits buf a ha with h | h | ⟨m, h⟩ <;> rw [h]

theorem summariesOf_waitLoop (timeout : Int) (id : Nat) (buf : List Nat) (waits : List Wait) :
    summariesOf (waitLoop timeout id buf waits).trace = [] := by
  unfold summariesOf
  rw [List.filterMap_eq_nil_iff]
  intro a ha
  rcases waitLoop_acts timeout id waits buf a ha with h | h | ⟨m, h⟩ <;> rw [h]

/-! ## Theorems: the ping loop -/

theorem recvInto_length (buf data : List Nat) : (recvInto buf data).length = buf.length := by
  unfold recvInto
  simp only [List.length_append, List.length_take, List.length_drop]
  omega

theorem waitLoop_buf_length (timeout : Int) (id : Nat) (waits : List Wait) :
    ∀ buf : List Nat, (waitLoop timeout id buf waits).receiveBuff.length = buf.length := by
  induction waits with
  | nil => intro buf; simp [waitLoop]
  | cons w rest ih =>
    intro buf
    cases w with
    | pollErr => simp [waitLoop]
    | pollTimeout => simp [waitLoop]
    | recvErr => simp [waitLoop]
    | recvData data =>
      unfold waitLoop
      split_ifs
      · simp [recvInto_length]
      · simp only; rw [ih, recvInto_length]
      · simp [recvInto_length]
      · simp [recvInto_length]
      · simp only; rw [ih, recvInto_length]

/-- A round of the outer loop that goes on to the next round: `Write` succeeded, the wait
ended with the response or a timeout, and the variables are updated as in lines 199-218. -/
theorem cycle_next (cfg : Config) (st : LoopState) (w : Option Bool) (waits : List Wait)
    (st1 : LoopState) (rest : List Wait) (tr : List Act)
    (h : cycle cfg st w waits = .next st1 rest tr) :
    w = some true ∧
      ((waitLoop cfg.timeout st.id st.receiveBuff waits).outcome = .matched ∨
        (waitLoop cfg.timeout st.id st.receiveBuff waits).outcome = .lost) ∧
      st1.id = nextId st.id ∧
      st1.sendBuff = st.sendBuff.set 1 st.id ∧
      st1.receiveBuff = (waitLoop cfg.timeout st.id st.receiveBuff waits).receiveBuff ∧
      st1.sentPkt = wrapInt (st.sentPkt + 1) ∧
      rest = (waitLoop cfg.timeout st.id st.receiveBuff waits).rest ∧
      writesOf tr = [st.sendBuff.set 1 st.id] ∧
      offsetsOf tr = [idOffset st.id] := by
  have hw := writesOf_waitLoop cfg.timeout st.id st.receiveBuff waits
  have ho := offsetsOf_waitLoop cfg.timeout st.id st.receiveBuff waits
  unfold writesOf at hw
  unfold offsetsOf at ho
  by_cases hc : st.count ≠ -1 ∧
      (if st.count ≠ -1 then wrapInt (st.count - 1) else st.count) < 0
  · simp only [cycle, if_pos hc] at h
    exact absurd h (by simp)
  · rcases w with _ | _ | _
    · simp only [cycle, if_neg hc] at h
      exact absurd h (by simp)
    · simp only [cycle, if_neg hc] at h
      exact absurd h (by simp)
    · simp only [cycle, if_neg hc] at h
      split at h
      · exact absurd h (by simp)
      · exact absurd h (by simp)
      · rename_i hm
        simp only [Step.next.injEq] at h
        obtain ⟨h1, h2, h3⟩ := h
        subst h1 h2 h3
        refine ⟨rfl, Or.inl hm, rfl, rfl, rfl, rfl, rfl, ?_, ?_⟩
        · unfold writesOf
          rw [List.filterMap_append, List.filterMap_cons, hw]
          split_ifs <;> simp
        · unfold offsetsOf
          rw [List.filterMap_append, List.filterMap_cons, ho]
          split_ifs <;> simp
      · rename_i hm
        simp only [Step.next.injEq] at h
        obtain ⟨h1, h2, h3⟩ := h
        subst h1 h2 h3
        refine ⟨rfl, Or.inr hm, rfl, rfl, rfl, rfl, rfl, ?_, ?_⟩
        · unfold writesOf
          rw [List.filterMap_append, List.filterMap_cons, hw]
          simp
        · unfold offsetsOf
          rw [List.filterMap_append, List.filterMap_cons, ho]
          simp

theorem nextId_spec (id : Nat) (h1 : 200 ≤ id) (h2 : id ≤ 254) :
    nextId id = (if id = 254 then 200 else id + 1) ∧ 200 ≤ nextId id ∧ nextId id ≤ 254 := by
  unfold nextId toByte ident
  split_ifs <;> omega

/-- A round that ends the run leaves the identifier and the counters as they were. -/
theorem cycle_stop (cfg : Config) (st : LoopState) (w : Option Bool) (waits : List Wait)
    (status : Status) (st1 : LoopState) (tr : List Act)
    (h : cycle cfg st w waits = .stop status st1 tr) :
    st1.id = st.id ∧ st1.sentPkt = st.sentPkt ∧ st1.recvPkt = st.recvPkt := by
  by_cases hc : st.count ≠ -1 ∧
      (if st.count ≠ -1 then wrapInt (st.count - 1) else st.count) < 0
  · simp only [cycle, if_pos hc, Step.stop.injEq] at h
    obtain ⟨_, h2, _⟩ := h
    subst h2
    exact ⟨rfl, rfl, rfl⟩
  · rcases w with _ | _ | _
    · simp only [cycle, if_neg hc, Step.stop.injEq] at h
      obtain ⟨_, h2, _⟩ := h
      subst h2
      exact ⟨rfl, rfl, rfl⟩
    · simp only [cycle, if_neg hc, Step.stop.injEq] at h
      obtain ⟨_, h2, _⟩ := h
      subst h2
      exact ⟨rfl, rfl, rfl⟩
    · simp only [cycle, if_neg hc] at h
      split at h
      · simp only [Step.stop.injEq] at h
        obtain ⟨_, h2, _⟩ := h
        subst h2
        exact ⟨rfl, rfl, rfl⟩
      · simp only [Step.stop.injEq] at h
        obtain ⟨_, h2, _⟩ := h
        subst h2
        exact ⟨rfl, rfl, rfl⟩
      · exact absurd h (by simp)
      · exact absurd h (by simp)

/-- The frames a round writes: none when the count is used up, else the send buffer with
the identifier in byte 1. -/
theorem cycle_writes (cfg : Config) (st : LoopState) (w : Option Bool) (waits : List Wait) :
    writesOf (cycle cfg st w waits).trace = [] ∨
      writesOf (cycle cfg st w waits).trace = [st.sendBuff.set 1 st.id] := by
  have hw := writesOf_waitLoop cfg.timeout st.id st.receiveBuff waits
  unfold writesOf at hw
  by_cases hc : st.count ≠ -1 ∧
      (if st.count ≠ -1 then wrapInt (st.count - 1) else st.count) < 0
  · left
    simp only [cycle, if_pos hc, Step.trace, writesOf]
    rfl
  · right
    rcases w with _ | _ | _
    · simp only [cycle, if_neg hc, Step.trace, writesOf]
      rfl
    · simp only [cycle, if_neg hc, Step.trace, writesOf]
      rfl
    · simp only [cycle, if_neg hc]
      split
      · simp only [Step.trace, writesOf]
        rw [List.filterMap_cons, hw]
      · simp only [Step.trace, writesOf]
        rw [List.filterMap_append, List.filterMap_cons, hw]
        rfl
      · simp only [Step.trace, writesOf]
        rw [List.filterMap_append, List.filterMap_cons, hw]
        split_ifs <;> rfl
      · simp only [Step.trace, writesOf]
        rw [List.filterMap_append, List.filterMap_cons, hw]
        rfl

/-- What holds at the start of every round: the identifier is in `200 .. 254`, the receive
buffer has `4 + size` bytes, and the send buffer is the initial frame up to byte 1. -/
theorem reachable_inv (cfg : Config) (size : Nat) (st : LoopState)
    (h : Reachable cfg size st) :
    200 ≤ st.id ∧ st.id ≤ 254 ∧ st.receiveBuff.length = 4 + size ∧
      ∀ x, st.sendBuff.set 1 x = (initSendBuff size (List.replicate (4 + size) 0)).set 1 x := by
  induction h with
  | init =>
    refine ⟨by simp [initState, ident], by simp [initState, ident], ?_, ?_⟩
    · simp [initState, l2CAPCommandHeaderSize]
    · intro x; rfl
  | step hst hcyc ih =>
    obtain ⟨i1, i2, i3, i4⟩ := ih
    obtain ⟨_, _, c3, c4, c5, _, _, _, _⟩ := cycle_next _ _ _ _ _ _ _ hcyc
    obtain ⟨_, n2, n3⟩ := nextId_spec _ i1 i2
    refine ⟨?_, ?_, ?_, ?_⟩
    · rw [c3]; exact n2
    · rw [c3]; exact n3
    · rw [c5, waitLoop_buf_length, i3]
    · intro x
      rw [c4, List.set_set, i4]

/-- The variables at the end of a run are those of a reachable start of a round, as far as
the identifier goes. -/
theorem pingLoop_id (cfg : Config) (size : Nat) (ws : List Bool) :
    ∀ (st : LoopState) (waits : List Wait), Reachable cfg size st →
      ∃ st1, Reachable cfg size st1 ∧ (pingLoop cfg st ws waits).state.id = st1.id := by
  induction ws with
  | nil =>
    intro st waits hst
    unfold pingLoop
    cases hc : cycle cfg st none waits with
    | stop status st1 tr =>
      exact ⟨st, hst, (cycle_stop _ _ _ _ _ _ _ hc).1⟩
    | next st1 rest tr =>
      exact ⟨st1, Reachable.step hst hc, rfl⟩
  | cons w ws ih =>
    intro st waits hst
    unfold pingLoop
    cases hc : cycle cfg st (some w) waits with
    | stop status st1 tr =>
      exact ⟨st, hst, (cycle_stop _ _ _ _ _ _ _ hc).1⟩
    | next st1 rest tr =>
      obtain ⟨st2, r2, e2⟩ := ih st1 rest (Reachable.step hst hc)
      exact ⟨st2, r2, e2⟩

/-- C5. In every reachable state of the ping loop the identifier lies in `200 .. 254`: it
starts at 200, every completed round advances it by one, and after 254 comes 200. This holds
at the start of every round and at the end of every run, whatever the transport answers. -/
theorem identifier_in_range (cfg : Config) (size : Nat) :
    (initState cfg.count size).id = 200 ∧
      (∀ st, Reachable cfg size st → 200 ≤ st.id ∧ st.id ≤ 254) ∧
      (∀ st w waits st1 rest tr, Reachable cfg size st →
        cycle cfg st w waits = .next st1 rest tr →
        st1.id = if st.id = 254 then 200 else st.id + 1) ∧
      (∀ ws waits,
        200 ≤ (pingLoop cfg (initState cfg.count size) ws waits).state.id ∧
        (pingLoop cfg (initState cfg.count size) ws waits).state.id ≤ 254) := by
  refine ⟨rfl, ?_, ?_, ?_⟩
  · intro st hst
    obtain ⟨i1, i2, _⟩ := reachable_inv cfg size st hst
    exact ⟨i1, i2⟩
  · intro st w waits st1 rest tr hst hcyc
    obtain ⟨i1, i2, _⟩ := reachable_inv cfg size st hst
    obtain ⟨_, _, c3, _⟩ := cycle_next _ _ _ _ _ _ _ hcyc
    rw [c3]
    exact (nextId_spec _ i1 i2).1
  · intro ws waits
    obtain ⟨st1, r1, e1⟩ := pingLoop_id cfg size ws _ waits Reachable.init
    obtain ⟨i1, i2, _⟩ := reachable_inv cfg size st1 r1
    rw [e1]
    exact ⟨i1, i2⟩

/-- C8. For every size and every reachable start of a round, a frame the round writes to
the socket has length `4 + size`, byte 0 = `0x08` (echo request), byte 1 = the current
identifier, byte 2 = `size mod 256`, byte 3 = 0, and payload byte `i` = `'A' + i mod 40`. -/
theorem echo_frame_layout (cfg : Config) (size : Nat) (st : LoopState) (w : Option Bool)
    (waits : List Wait) (f : List Nat) (hst : Reachable cfg size st)
    (hf : f ∈ writesOf (cycle cfg st w waits).trace) :
    f.length = 4 + size ∧ f.getD 0 0 = l2CAPEchoRequest ∧ f.getD 1 0 = st.id ∧
      f.getD 2 0 = size % 256 ∧ f.getD 3 0 = 0 ∧
      ∀ i, i < size → f.getD (4 + i) 0 = 'A'.toNat + i % 40 := by
  obtain ⟨_, _, _, i4⟩ := reachable_inv cfg size st hst
  have hfe : f = (initSendBuff size (List.replicate (4 + size) 0)).set 1 st.id := by
    rcases cycle_writes cfg st w waits with h | h
    · rw [h] at hf; simp at hf
    · rw [h] at hf
      simp only [List.mem_singleton] at hf
      rw [hf, i4]
  rw [hfe]
  exact initSendBuff_layout size st.id

/-! ## Theorems: the wait loop -/

/-- The first bytes of the receive buffer after a read are those of the frame. -/
theorem recvInto_getD (buf data : List Nat) (i : Nat) (h1 : i < data.length)
    (h2 : i < buf.length) : (recvInto buf data).getD i 0 = data.getD i 0 := by
  unfold recvInto
  rw [List.getD_append _ _ _ _ (by simp; omega)]
  simp only [List.getD_eq_getElem?_getD, List.getElem?_take, if_pos h2]

/-- A frame that is passed over costs one `Poll` and one `Recvfrom` and leaves the wait
as it was, the receive buffer apart. -/
theorem waitLoop_ignored (timeout : Int) (id : Nat) (buf f : List Nat) (rest : List Wait)
    (hbuf : 2 ≤ buf.length) (hf : Ignored id f) :
    waitLoop timeout id buf (.recvData f :: rest) =
      { waitLoop timeout id (recvInto buf f) rest with
        trace := .poll (pollTimeout timeout) :: .recvfrom ::
          (waitLoop timeout id (recvInto buf f) rest).trace } := by
  obtain ⟨hlen, hcase⟩ := hf
  have hmin : ¬ (min f.length buf.length = 0) := by omega
  have g1 : (recvInto buf f).getD 1 0 = f.getD 1 0 := recvInto_getD buf f 1 (by omega) (by omega)
  have g0 : (recvInto buf f).getD 0 0 = f.getD 0 0 := recvInto_getD buf f 0 (by omega) (by omega)
  rw [waitLoop]
  rw [if_neg hmin, g1, g0]
  rcases hcase with h | ⟨ha, hb⟩
  · rw [if_pos h]
  · by_cases h : f.getD 1 0 ≠ id
    · rw [if_pos h]
    · rw [if_neg h, if_neg ha, if_neg hb]

/-- Frames that are passed over, read one after the other. -/
theorem waitLoop_skip (timeout : Int) (id : Nat) (frames : List (List Nat)) :
    ∀ (buf : List Nat) (rest : List Wait), 2 ≤ buf.length →
      (∀ f ∈ frames, Ignored id f) →
      waitLoop timeout id buf (frames.map Wait.recvData ++ rest) =
        { waitLoop timeout id (recvAll buf frames) rest with
          trace := readTrace timeout frames ++
            (waitLoop timeout id (recvAll buf frames) rest).trace } := by
  induction frames with
  | nil => intro buf rest _ _; simp [recvAll, readTrace]
  | cons f fs ih =>
    intro buf rest hbuf hall
    have hf := hall f (by simp)
    have hfs : ∀ g ∈ fs, Ignored id g := fun g hg => hall g (by simp [hg])
    have hbuf2 : 2 ≤ (recvInto buf f).length := by rw [recvInto_length]; exact hbuf
    simp only [List.map_cons, List.cons_append]
    rw [waitLoop_ignored timeout id buf f _ hbuf hf, ih (recvInto buf f) rest hbuf2 hfs]
    simp [recvAll, readTrace]

theorem recvAll_length (frames : List (List Nat)) :
    ∀ buf : List Nat, (recvAll buf frames).length = buf.length := by
  induction frames with
  | nil => intro buf; rfl
  | cons f fs ih =>
    intro buf
    simp only [recvAll, List.foldl_cons] at ih ⊢
    rw [ih, recvInto_length]

/-- The wait loop in a scripted round: the stray frames are passed over, then the echo
response ends the wait as matched, or the timeout ends it as lost. -/
theorem waitLoop_round (timeout : Int) (id : Nat) (r : Round) (buf : List Nat)
    (rest : List Wait) (hbuf : 2 ≤ buf.length) (hok : ∀ f ∈ r.stray, Ignored id f) :
    (waitLoop timeout id buf (roundWaits id r ++ rest)).outcome
        = (if r.reply.isSome then WaitEnd.matched else WaitEnd.lost) ∧
      (waitLoop timeout id buf (roundWaits id r ++ rest)).rest = rest ∧
      (waitLoop timeout id buf (roundWaits id r ++ rest)).receiveBuff.length = buf.length := by
  have hb2 : 2 ≤ (recvAll buf r.stray).length := by rw [recvAll_length]; exact hbuf
  unfold roundWaits
  rw [List.append_assoc, waitLoop_skip timeout id r.stray buf _ hbuf hok]
  cases hr : r.reply with
  | none =>
    simp [waitLoop, recvAll_length]
  | some tail =>
    have hmin : ¬ (min (l2CAPEchoResponse :: id :: tail).length
        (recvAll buf r.stray).length = 0) := by
      simp only [List.length_cons]; omega
    have g1 : (recvInto (recvAll buf r.stray) (l2CAPEchoResponse :: id :: tail)).getD 1 0
        = id := by
      rw [recvInto_getD _ _ 1 (by simp) (by omega)]; rfl
    have g0 : (recvInto (recvAll buf r.stray) (l2CAPEchoResponse :: id :: tail)).getD 0 0
        = l2CAPEchoResponse := by
      rw [recvInto_getD _ _ 0 (by simp) (by omega)]; rfl
    simp only [List.singleton_append]
    rw [waitLoop, if_neg hmin, g1, g0]
    simp [recvInto_length, recvAll_length]

/-- Every `Poll` of the wait loop is issued with the configured timeout, whatever the
transport answers. -/
theorem waitLoop_polls (timeout : Int) (id : Nat) (buf : List Nat) (waits : List Wait) :
    ∀ t ∈ pollsOf (waitLoop timeout id buf waits).trace, t = pollTimeout timeout := by
  intro t ht
  unfold pollsOf at ht
  rw [List.mem_filterMap] at ht
  obtain ⟨a, ha, hat⟩ := ht
  rcases waitLoop_acts timeout id waits buf a ha with h | h | ⟨m, h⟩
  · rw [h] at hat
    simp only [Option.some.injEq] at hat
    exact hat.symm
  · rw [h] at hat; simp at hat
  · rw [h] at hat; simp at hat

/-- The wait loop starts with a `Poll`. -/
theorem waitLoop_first_poll (timeout : Int) (id : Nat) (buf : List Nat) (waits : List Wait) :
    0 < (pollsOf (waitLoop timeout id buf waits).trace).length := by
  cases waits with
  | nil => simp [waitLoop, pollsOf]
  | cons w rest =>
    cases w with
    | pollErr => simp [waitLoop, pollsOf]
    | pollTimeout => simp [waitLoop, pollsOf]
    | recvErr => simp [waitLoop, pollsOf]
    | recvData data =>
      unfold waitLoop
      split_ifs <;> simp [pollsOf]

theorem pollsOf_readTrace (timeout : Int) (frames : List (List Nat)) :
    (pollsOf (readTrace timeout frames)).length = frames.length := by
  induction frames with
  | nil => rfl
  | cons f fs ih =>
    simp only [readTrace, pollsOf, List.flatMap_cons, List.cons_append, List.nil_append,
      List.filterMap_cons, List.length_cons] at ih ⊢
    rw [ih]

theorem mismatched_ignored (id : Nat) (f : List Nat) (h : Mismatched id f) : Ignored id f :=
  ⟨h.1, Or.inl h.2⟩

/-- A byte of the receive buffer that a read does not reach keeps its value. -/
theorem recvInto_getD_kept (buf data : List Nat) (i : Nat) (h1 : data.length ≤ i)
    (h2 : i < buf.length) : (recvInto buf data).getD i 0 = buf.getD i 0 := by
  unfold recvInto
  have hl : (data.take buf.length).length = data.length := by
    rw [List.length_take]; omega
  rw [List.getD_append_right _ _ _ _ (by omega), hl]
  simp only [List.getD_eq_getElem?_getD, List.getElem?_drop]
  rw [show data.length + (i - data.length) = i by omega]

/-- Two receive buffers that agree on a byte agree on it after the same read. -/
theorem recvInto_agree (buf1 buf2 data : List Nat) (i : Nat) (h1 : i < buf1.length)
    (h2 : i < buf2.length) (e : buf1.getD i 0 = buf2.getD i 0) :
    (recvInto buf1 data).getD i 0 = (recvInto buf2 data).getD i 0 := by
  by_cases hd : i < data.length
  · rw [recvInto_getD buf1 data i hd h1, recvInto_getD buf2 data i hd h2]
  · rw [recvInto_getD_kept buf1 data i (by omega) h1,
      recvInto_getD_kept buf2 data i (by omega) h2, e]

/-- The wait loop looks at the bytes 0 and 1 of the receive buffer only, and at the buffer
a read has filled: from two buffers that agree on these bytes, or when the first answer of
the transport is not a read of exactly one byte, the wait takes the same course. -/
theorem waitLoop_agree (timeout : Int) (id : Nat) (waits : List Wait) :
    ∀ buf1 buf2 : List Nat, 2 ≤ buf1.length → 2 ≤ buf2.length →
      ((buf1.getD 0 0 = buf2.getD 0 0 ∧ buf1.getD 1 0 = buf2.getD 1 0) ∨
        startsWithOneByteRead waits = false) →
      (waitLoop timeout id buf1 waits).outcome = (waitLoop timeout id buf2 waits).outcome ∧
        (waitLoop timeout id buf1 waits).rest = (waitLoop timeout id buf2 waits).rest ∧
        (waitLoop timeout id buf1 waits).trace = (waitLoop timeout id buf2 waits).trace := by
  induction waits with
  | nil => intro buf1 buf2 _ _ _; simp [waitLoop]
  | cons w ws ih =>
    intro buf1 buf2 h1 h2 hag
    cases w with
    | pollErr => simp [waitLoop]
    | pollTimeout => simp [waitLoop]
    | recvErr => simp [waitLoop]
    | recvData data =>
      by_cases c0 : data.length = 0
      · have m1 : min data.length buf1.length = 0 := by omega
        have m2 : min data.length buf2.length = 0 := by omega
        simp only [waitLoop, if_pos m1, if_pos m2, and_self]
      · have m1 : ¬ (min data.length buf1.length = 0) := by omega
        have m2 : ¬ (min data.length buf2.length = 0) := by omega
        have l1 : 2 ≤ (recvInto buf1 data).length := by rw [recvInto_length]; exact h1
        have l2 : 2 ≤ (recvInto buf2 data).length := by rw [recvInto_length]; exact h2
        have hbytes : (recvInto buf1 data).getD 0 0 = (recvInto buf2 data).getD 0 0 ∧
            (recvInto buf1 data).getD 1 0 = (recvInto buf2 data).getD 1 0 := by
          rcases hag with ⟨e0, e1⟩ | hone
          · exact ⟨recvInto_agree buf1 buf2 data 0 (by omega) (by omega) e0,
              recvInto_agree buf1 buf2 data 1 (by omega) (by omega) e1⟩
          · have hlen : 2 ≤ data.length := by
              match data, c0, hone with
              | [_], _, hone => simp [startsWithOneByteRead] at hone
              | _ :: _ :: _, _, _ => simp
            exact ⟨by rw [recvInto_getD buf1 data 0 (by omega) (by omega),
                recvInto_getD buf2 data 0 (by omega) (by omega)],
              by rw [recvInto_getD buf1 data 1 (by omega) (by omega),
                recvInto_getD buf2 data 1 (by omega) (by omega)]⟩
        obtain ⟨i1, i2, i3⟩ := ih _ _ l1 l2 (Or.inl hbytes)
        simp only [waitLoop, if_neg m1, if_neg m2, ← hbytes.1, ← hbytes.2]
        split_ifs
        · exact ⟨i1, i2, by rw [i3]⟩
        · exact ⟨rfl, rfl, rfl⟩
        · exact ⟨rfl, rfl, rfl⟩
        · exact ⟨i1, i2, by rw [i3]⟩

/-- C6 (amended). In the wait loop of one round, received frames whose identifier byte differs
from the current identifier never end the wait: whenever the remaining answers of the
transport do not begin with a read of exactly one byte, the outcome of the wait after first
reading any number of such frames is the outcome on the remaining answers (and so are the
answers left unused and, after the reads of the frames, what the loop does). Every `Poll` of
the wait is issued with the full timeout `timeout * 1000`, also after a mismatch: each
mismatched frame is followed by another `Poll`. -/
theorem mismatched_frames_do_not_end_wait (timeout : Int) (id : Nat) (buf : List Nat)
    (frames : List (List Nat)) (rest : List Wait) (hbuf : 2 ≤ buf.length)
    (hmis : ∀ f ∈ frames, Mismatched id f) (hrest : startsWithOneByteRead rest = false) :
    (waitLoop timeout id buf (frames.map Wait.recvData ++ rest)).outcome
        = (waitLoop timeout id buf rest).outcome ∧
      (waitLoop timeout id buf (frames.map Wait.recvData ++ rest)).rest
        = (waitLoop timeout id buf rest).rest ∧
      (waitLoop timeout id buf (frames.map Wait.recvData ++ rest)).trace
        = readTrace timeout frames ++ (waitLoop timeout id buf rest).trace ∧
      (∀ t ∈ pollsOf (waitLoop timeout id buf (frames.map Wait.recvData ++ rest)).trace,
        t = pollTimeout timeout) ∧
      frames.length
        < (pollsOf (waitLoop timeout id buf (frames.map Wait.recvData ++ rest)).trace).length ∧
      (-9223372036854775808 ≤ timeout * 1000 → timeout * 1000 < 9223372036854775808 →
        pollTimeout timeout = timeout * 1000) := by
  have hskip := waitLoop_skip timeout id frames buf rest hbuf
    (fun f hf => mismatched_ignored id f (hmis f hf))
  have hlen : 2 ≤ (recvAll buf frames).length := by rw [recvAll_length]; exact hbuf
  obtain ⟨a1, a2, a3⟩ := waitLoop_agree timeout id rest (recvAll buf frames) buf hlen hbuf
    (Or.inr hrest)
  refine ⟨by rw [hskip]; exact a1, by rw [hskip]; exact a2, by rw [hskip, ← a3], ?_, ?_, ?_⟩
  · exact waitLoop_polls timeout id buf _
  · rw [hskip]
    simp only [pollsOf, List.filterMap_append, List.length_append]
    have h1 := pollsOf_readTrace timeout frames
    have h2 := waitLoop_first_poll timeout id (recvAll buf frames) rest
    unfold pollsOf at h1 h2
    omega
  · intro h1 h2
    exact wrapInt_of_range _ h1 h2

/-- C6, witness of the amended statement: the receive buffer holds a frame of an earlier
round, two frames for other identifiers are read, then the response. -/
theorem mismatched_frames_do_not_end_wait_witness :
    (waitLoop 10 200 [5, 200, 0, 0]
        ([[9, 199, 0, 0], [9, 201, 0, 0]].map Wait.recvData ++ [Wait.recvData [9, 200, 0, 0]])).outcome
        = (waitLoop 10 200 [5, 200, 0, 0] [Wait.recvData [9, 200, 0, 0]]).outcome ∧
      (waitLoop 10 200 [5, 200, 0, 0]
        ([[9, 199, 0, 0], [9, 201, 0, 0]].map Wait.recvData ++ [Wait.recvData [9, 200, 0, 0]])).outcome
        = WaitEnd.matched :=
  ⟨(mismatched_frames_do_not_end_wait 10 200 [5, 200, 0, 0] [[9, 199, 0, 0], [9, 201, 0, 0]]
      [Wait.recvData [9, 200, 0, 0]] (by decide) (by simp [Mismatched]) (by decide)).1,
    by decide⟩

/-- C6, counterexample. The round with identifier 200 reads the frame `[9, 201, 0, 0]` and
times out, which leaves that frame in the receive buffer. In the next round, with identifier
201, the answers "a read of the one byte 9, then a timeout" end the wait as matched, the
byte 1 compared being the one left in the buffer; when the frame `[9, 199, 0, 0]`, whose
identifier byte is not 201, is read first, the same answers end the wait as lost. -/
theorem mismatched_frame_changes_outcome :
    (waitLoop 10 200 [0, 0, 0, 0] [Wait.recvData [9, 201, 0, 0], Wait.pollTimeout]).receiveBuff
        = [9, 201, 0, 0] ∧
      nextId 200 = 201 ∧
      Mismatched 201 [9, 199, 0, 0] ∧
      (waitLoop 10 201 [9, 201, 0, 0]
        ([[9, 199, 0, 0]].map Wait.recvData ++ [Wait.recvData [9], Wait.pollTimeout])).outcome
        = WaitEnd.lost ∧
      (waitLoop 10 201 [9, 201, 0, 0] [Wait.recvData [9], Wait.pollTimeout]).outcome
        = WaitEnd.matched ∧
      (waitLoop 10 201 [9, 201, 0, 0]
        ([[9, 199, 0, 0]].map Wait.recvData ++ [Wait.recvData [9], Wait.pollTimeout])).outcome
        ≠ (waitLoop 10 201 [9, 201, 0, 0] [Wait.recvData [9], Wait.pollTimeout]).outcome := by
  refine ⟨by decide, by decide, ⟨by decide, by decide⟩, by decide, by decide, by decide⟩

/-- The counterexample of the wait loop, in a session of two requests. The round with
identifier 200 reads a frame for identifier 201 and times out; in the round with identifier
201 a read of one byte then counts as the response, and does not when a frame for
identifier 199 is read before it. -/
theorem one_byte_read_in_session :
    summariesOf (pingLoop { svr := [], size := 0, count := 2, timeout := 10, delay := 0 }
        (initState 2 0) [true, true, true]
        [Wait.recvData [9, 201, 0, 0], Wait.pollTimeout,
          Wait.recvData [9], Wait.pollTimeout]).trace = [(2, 1, 50)] ∧
      summariesOf (pingLoop { svr := [], size := 0, count := 2, timeout := 10, delay := 0 }
        (initState 2 0) [true, true, true]
        [Wait.recvData [9, 201, 0, 0], Wait.pollTimeout,
          Wait.recvData [9, 199, 0, 0], Wait.recvData [9], Wait.pollTimeout]).trace
        = [(2, 0, 100)] := by
  decide

/-! ## Theorems: sessions -/

theorem summariesOf_readTrace (timeout : Int) (frames : List (List Nat)) :
    summariesOf (readTrace timeout frames) = [] := by
  induction frames with
  | nil => rfl
  | cons f fs ih =>
    simp only [readTrace, summariesOf, List.flatMap_cons, List.cons_append, List.nil_append,
      List.filterMap_cons] at ih ⊢
    exact ih

/-- A scripted round of the outer loop, with the count not used up: the loop goes on with
the variables updated as in lines 199-218, having written one frame and printed one line. -/
theorem cycle_round (cfg : Config) (st : LoopState) (r : Round) (rest : List Wait)
    (hcount : st.count = -1 ∨ (0 < st.count ∧ st.count < 9223372036854775808))
    (hbuf : 2 ≤ st.receiveBuff.length) (hok : ∀ f ∈ r.stray, Ignored st.id f) :
    ∃ st1 tr, cycle cfg st (some true) (roundWaits st.id r ++ rest) = .next st1 rest tr ∧
      st1.id = nextId st.id ∧
      st1.count = (if st.count = -1 then -1 else st.count - 1) ∧
      st1.sentPkt = wrapInt (st.sentPkt + 1) ∧
      st1.recvPkt = (if r.reply.isSome then wrapInt (st.recvPkt + 1) else st.recvPkt) ∧
      st1.sendBuff = st.sendBuff.set 1 st.id ∧
      st1.receiveBuff.length = st.receiveBuff.length ∧
      writesOf tr = [st.sendBuff.set 1 st.id] ∧
      offsetsOf tr = [idOffset st.id] ∧
      summariesOf tr = [] ∧
      (∀ c, Act.exit c ∉ tr) := by
  have hc : ¬ (st.count ≠ -1 ∧
      (if st.count ≠ -1 then wrapInt (st.count - 1) else st.count) < 0) := by
    rcases hcount with h | ⟨h1, h2⟩
    · simp [h]
    · have hne : st.count ≠ -1 := by omega
      rw [if_pos hne, wrapInt_of_range _ (by omega) (by omega)]
      omega
  have hcnt : (if st.count ≠ -1 then wrapInt (st.count - 1) else st.count)
      = (if st.count = -1 then -1 else st.count - 1) := by
    rcases hcount with h | ⟨h1, h2⟩
    · simp [h]
    · have hne : st.count ≠ -1 := by omega
      rw [if_pos hne, if_neg hne, wrapInt_of_range _ (by omega) (by omega)]
  obtain ⟨ho, hr, hl⟩ := waitLoop_round cfg.timeout st.id r st.receiveBuff rest hbuf hok
  have hsum := summariesOf_waitLoop cfg.timeout st.id st.receiveBuff (roundWaits st.id r ++ rest)
  have hacts := waitLoop_acts cfg.timeout st.id (roundWaits st.id r ++ rest) st.receiveBuff
  cases hcyc : cycle cfg st (some true) (roundWaits st.id r ++ rest) with
  | stop status st1 tr =>
    exfalso
    cases hrep : r.reply.isSome with
    | true =>
      rw [hrep] at ho
      simp only [if_true] at ho
      simp only [cycle, if_neg hc, ho] at hcyc
      exact absurd hcyc (by simp)
    | false =>
      rw [hrep] at ho
      simp only [Bool.false_eq_true, if_false] at ho
      simp only [cycle, if_neg hc, ho] at hcyc
      exact absurd hcyc (by simp)
  | next st1 rest1 tr =>
    obtain ⟨_, _, c3, c4, c5, c6, c7, c8, c9⟩ := cycle_next _ _ _ _ _ _ _ hcyc
    have hrest : rest1 = rest := by rw [c7, hr]
    subst hrest
    refine ⟨st1, tr, rfl, c3, ?_, c6, ?_, c4, ?_, c8, c9, ?_, ?_⟩
    · rw [← hcnt]
      cases hrep : r.reply.isSome with
      | true =>
        rw [hrep] at ho
        simp only [if_true] at ho
        simp only [cycle, if_neg hc, ho, Step.next.injEq] at hcyc
        rw [← hcyc.1]
      | false =>
        rw [hrep] at ho
        simp only [Bool.false_eq_true, if_false] at ho
        simp only [cycle, if_neg hc, ho, Step.next.injEq] at hcyc
        rw [← hcyc.1]
    · cases hrep : r.reply.isSome with
      | true =>
        rw [hrep] at ho
        simp only [if_true] at ho
        simp only [cycle, if_neg hc, ho, Step.next.injEq] at hcyc
        rw [← hcyc.1]
        rfl
      | false =>
        rw [hrep] at ho
        simp only [Bool.false_eq_true, if_false] at ho
        simp only [cycle, if_neg hc, ho, Step.next.injEq] at hcyc
        rw [← hcyc.1]
        rfl
    · rw [c5, hl]
    · cases hrep : r.reply.isSome with
      | true =>
        rw [hrep] at ho
        simp only [if_true] at ho
        simp only [cycle, if_neg hc, ho, Step.next.injEq] at hcyc
        rw [← hcyc.2.2]
        unfold summariesOf at hsum ⊢
        rw [List.filterMap_append, List.filterMap_cons, hsum]
        split_ifs <;> simp
      | false =>
        rw [hrep] at ho
        simp only [Bool.false_eq_true, if_false] at ho
        simp only [cycle, if_neg hc, ho, Step.next.injEq] at hcyc
        rw [← hcyc.2.2]
        unfold summariesOf at hsum ⊢
        rw [List.filterMap_append, List.filterMap_cons, hsum]
        simp
    · intro c hmem
      cases hrep : r.reply.isSome with
      | true =>
        rw [hrep] at ho
        simp only [if_true] at ho
        simp only [cycle, if_neg hc, ho, Step.next.injEq] at hcyc
        rw [← hcyc.2.2] at hmem
        simp only [List.mem_append, List.mem_cons] at hmem
        rcases hmem with (h | h) | h | h
        · exact absurd h (by simp)
        · rcases hacts _ h with h1 | h1 | ⟨m, h1⟩ <;> exact absurd h1 (by simp)
        · exact absurd h (by simp)
        · split_ifs at h <;> simp at h
      | false =>
        rw [hrep] at ho
        simp only [Bool.false_eq_true, if_false] at ho
        simp only [cycle, if_neg hc, ho, Step.next.injEq] at hcyc
        rw [← hcyc.2.2] at hmem
        simp only [List.mem_append, List.mem_cons] at hmem
        rcases hmem with (h | h) | h
        · exact absurd h (by simp)
        · rcases hacts _ h with h1 | h1 | ⟨m, h1⟩ <;> exact absurd h1 (by simp)
        · simp at h

/-- The identifier `k` rounds later: the identifiers cycle through `200 .. 254`. -/
theorem idAfter_spec (k : Nat) :
    ∀ id, 200 ≤ id → id ≤ 254 → idAfter id k = 200 + (id - 200 + k) % 55 := by
  induction k with
  | zero => intro id h1 h2; simp only [idAfter]; omega
  | succ n ih =>
    intro id h1 h2
    obtain ⟨n1, n2, n3⟩ := nextId_spec id h1 h2
    simp only [idAfter]
    rw [ih _ n2 n3, n1]
    split_ifs <;> omega

theorem idOffset_idAfter (k : Nat) : idOffset (idAfter ident k) = k % 55 := by
  rw [idAfter_spec k ident (by decide) (by decide)]
  unfold idOffset toByte ident
  omega

/-- With the count used up the loop ends: the summary line, then exit code 0, and nothing
is written to the socket. -/
theorem pingLoop_done (cfg : Config) (st : LoopState) (ws : List Bool) (waits : List Wait)
    (h : st.count = 0) :
    pingLoop cfg st ws waits =
      { status := .exited 0
        state := { st with count := -1 }
        trace := [.summary st.sentPkt st.recvPkt (lossPercent st.sentPkt st.recvPkt),
          .exit 0] } := by
  have hw : wrapInt (-1) = -1 := by decide
  cases ws with
  | nil => simp [pingLoop, cycle, stat, h, hw]
  | cons w ws => simp [pingLoop, cycle, stat, h, hw]

/-- A scripted session, as far as the rounds of the script go: the run is the rounds of the
script followed by the run from the variables they leave. -/
theorem session_rounds (cfg : Config) (rounds : List Round) :
    ∀ (st : LoopState) (ws : List Bool) (waits : List Wait),
      (st.count = -1 ∨ ((rounds.length : Int) ≤ st.count ∧ st.count < 9223372036854775808)) →
      2 ≤ st.receiveBuff.length → SessionOK st.id rounds →
      -9223372036854775808 ≤ st.sentPkt →
      st.sentPkt + rounds.length < 9223372036854775808 →
      -9223372036854775808 ≤ st.recvPkt →
      st.recvPkt + rounds.length < 9223372036854775808 →
      ∃ st1 tr,
        pingLoop cfg st (List.replicate rounds.length true ++ ws)
            (sessionWaits st.id rounds ++ waits)
          = { pingLoop cfg st1 ws waits with
              trace := tr ++ (pingLoop cfg st1 ws waits).trace } ∧
        st1.id = idAfter st.id rounds.length ∧
        st1.count = (if st.count = -1 then -1 else st.count - rounds.length) ∧
        st1.sentPkt = st.sentPkt + rounds.length ∧
        st1.recvPkt = st.recvPkt + matchedCount rounds ∧
        (∀ x, st1.sendBuff.set 1 x = st.sendBuff.set 1 x) ∧
        st1.receiveBuff.length = st.receiveBuff.length ∧
        (writesOf tr).length = rounds.length ∧
        offsetsOf tr = (List.range rounds.length).map (fun k => idOffset (idAfter st.id k)) ∧
        summariesOf tr = [] ∧
        (∀ c, Act.exit c ∉ tr) := by
  induction rounds with
  | nil =>
    intro st ws waits _ _ _ _ _ _ _
    refine ⟨st, [], ?_, rfl, ?_, ?_, ?_, fun _ => rfl, rfl, rfl, rfl, rfl, ?_⟩
    · simp [sessionWaits]
    · split_ifs with h
      · exact h
      · simp
    · simp
    · simp [matchedCount]
    · intro c hc; simp at hc
  | cons r rs ih =>
    intro st ws waits hcount hbuf hok hs1 hs2 hr1 hr2
    simp only [List.length_cons, Nat.cast_add, Nat.cast_one] at hcount hs2 hr2
    obtain ⟨hok1, hok2⟩ := hok
    have hcount1 : st.count = -1 ∨ (0 < st.count ∧ st.count < 9223372036854775808) := by
      rcases hcount with h | ⟨h1, h2⟩
      · exact Or.inl h
      · exact Or.inr ⟨by omega, h2⟩
    obtain ⟨st1, tr1, hcyc, d1, d2, d3, d4, d5, d6, d7, d8, d9, d10⟩ :=
      cycle_round cfg st r (sessionWaits (nextId st.id) rs ++ waits) hcount1 hbuf hok1
    have hsent : st1.sentPkt = st.sentPkt + 1 := by
      rw [d3, wrapInt_of_range _ (by omega) (by omega)]
    have hrecv : st1.recvPkt = st.recvPkt + (if r.reply.isSome then 1 else 0) := by
      rw [d4]
      split_ifs
      · rw [wrapInt_of_range _ (by omega) (by omega)]
      · simp
    have hcount2 : st1.count = -1 ∨
        ((rs.length : Int) ≤ st1.count ∧ st1.count < 9223372036854775808) := by
      rw [d2]
      rcases hcount with h | ⟨h1, h2⟩
      · left; simp [h]
      · right
        have hne : st.count ≠ -1 := by omega
        rw [if_neg hne]
        omega
    obtain ⟨st2, tr2, hrun, e1, e2, e3, e4, e5, e6, e7, e8, e9, e10⟩ :=
      ih st1 ws waits hcount2 (by rw [d6]; exact hbuf) (by rw [d1]; exact hok2)
        (by rw [hsent]; omega) (by rw [hsent]; omega)
        (by rw [hrecv]; split_ifs <;> omega) (by rw [hrecv]; split_ifs <;> omega)
    refine ⟨st2, tr1 ++ tr2, ?_, ?_, ?_, ?_, ?_, ?_, ?_, ?_, ?_, ?_, ?_⟩
    · simp only [List.length_cons, List.replicate_succ, List.cons_append, sessionWaits,
        List.append_assoc, pingLoop, hcyc, List.append_eq]
      rw [d1] at hrun
      rw [hrun]
    · rw [e1, d1]; rfl
    · rw [e2, d2]
      simp only [List.length_cons, Nat.cast_add, Nat.cast_one]
      rcases hcount with h | ⟨h1, h2⟩
      · simp [h]
      · have hne : st.count ≠ -1 := by omega
        have hne2 : st.count - 1 ≠ -1 := by omega
        rw [if_neg hne, if_neg hne2, if_neg hne]
        omega
    · rw [e3, hsent]
      simp only [List.length_cons, Nat.cast_add, Nat.cast_one]
      omega
    · rw [e4, hrecv]
      unfold matchedCount
      simp only [List.filter_cons]
      split_ifs
      · simp; omega
      · simp
    · intro x
      rw [e5, d5, List.set_set]
    · rw [e6, d6]
    · unfold writesOf at d7 e7 ⊢
      rw [List.filterMap_append, List.length_append, d7, e7]
      simp only [List.length_cons, List.length_nil]
      omega
    · unfold offsetsOf at d8 e8 ⊢
      rw [List.filterMap_append, d8, e8, d1, List.length_cons, List.range_succ_eq_map]
      simp only [List.map_cons, List.map_map, List.singleton_append, idAfter]
      rfl
    · unfold summariesOf at d9 e9 ⊢
      rw [List.filterMap_append, d9, e9]
      rfl
    · intro c hc
      rw [List.mem_append] at hc
      rcases hc with h | h
      · exact d10 c h
      · exact e10 c h

/-- The wait loop on a command reject for the current identifier, or on a read of zero
bytes, after any frames that are passed over: the wait fails. -/
theorem waitLoop_fatal (timeout : Int) (id : Nat) (buf : List Nat) (strays : List (List Nat))
    (fatal : List Nat) (waits : List Wait) (hbuf : 2 ≤ buf.length)
    (hstray : ∀ f ∈ strays, Ignored id f)
    (hfatal : fatal = [] ∨ ∃ tail, fatal = l2CAPCommandRejectResponse :: id :: tail) :
    (waitLoop timeout id buf
      (strays.map Wait.recvData ++ Wait.recvData fatal :: waits)).outcome = .failed := by
  have hb2 : 2 ≤ (recvAll buf strays).length := by rw [recvAll_length]; exact hbuf
  rw [waitLoop_skip timeout id strays buf _ hbuf hstray]
  simp only
  rcases hfatal with h | ⟨tail, h⟩
  · subst h
    simp [waitLoop]
  · subst h
    have hmin : ¬ (min (l2CAPCommandRejectResponse :: id :: tail).length
        (recvAll buf strays).length = 0) := by
      simp only [List.length_cons]; omega
    have g1 : (recvInto (recvAll buf strays) (l2CAPCommandRejectResponse :: id :: tail)).getD 1 0
        = id := by
      rw [recvInto_getD _ _ 1 (by simp) (by omega)]; rfl
    have g0 : (recvInto (recvAll buf strays) (l2CAPCommandRejectResponse :: id :: tail)).getD 0 0
        = l2CAPCommandRejectResponse := by
      rw [recvInto_getD _ _ 0 (by simp) (by omega)]; rfl
    rw [waitLoop, if_neg hmin, g1, g0]
    simp [l2CAPCommandRejectResponse, l2CAPEchoResponse]

/-- A round whose wait fails ends the run: exit code 1, the counters and the identifier as
they were, one frame written, no packet line and no summary line. -/
theorem pingLoop_failed (cfg : Config) (st : LoopState) (ws : List Bool) (waits : List Wait)
    (hcount : st.count = -1 ∨ (0 < st.count ∧ st.count < 9223372036854775808))
    (hout : (waitLoop cfg.timeout st.id st.receiveBuff waits).outcome = .failed) :
    (pingLoop cfg st (true :: ws) waits).status = .exited 1 ∧
      (pingLoop cfg st (true :: ws) waits).state.sentPkt = st.sentPkt ∧
      (pingLoop cfg st (true :: ws) waits).state.recvPkt = st.recvPkt ∧
      writesOf (pingLoop cfg st (true :: ws) waits).trace = [st.sendBuff.set 1 st.id] ∧
      offsetsOf (pingLoop cfg st (true :: ws) waits).trace = [] ∧
      summariesOf (pingLoop cfg st (true :: ws) waits).trace = [] ∧
      (pingLoop cfg st (true :: ws) waits).trace.getLast? = some (.exit 1) := by
  have hc : ¬ (st.count ≠ -1 ∧
      (if st.count ≠ -1 then wrapInt (st.count - 1) else st.count) < 0) := by
    rcases hcount with h | ⟨h1, h2⟩
    · simp [h]
    · have hne : st.count ≠ -1 := by omega
      rw [if_pos hne, wrapInt_of_range _ (by omega) (by omega)]
      omega
  have hw := writesOf_waitLoop cfg.timeout st.id st.receiveBuff waits
  have ho := offsetsOf_waitLoop cfg.timeout st.id st.receiveBuff waits
  have hs := summariesOf_waitLoop cfg.timeout st.id st.receiveBuff waits
  unfold writesOf at hw
  unfold offsetsOf at ho
  unfold summariesOf at hs
  simp only [pingLoop, cycle, if_neg hc, hout]
  refine ⟨trivial, trivial, trivial, ?_, ?_, ?_, ?_⟩
  · unfold writesOf
    rw [List.filterMap_append, List.filterMap_cons, hw]
    rfl
  · unfold offsetsOf
    rw [List.filterMap_append, List.filterMap_cons, ho]
    rfl
  · unfold summariesOf
    rw [List.filterMap_append, List.filterMap_cons, hs]
    rfl
  · rw [List.getLast?_append]
    rfl

theorem initState_buf (count : Int) (size : Nat) :
    2 ≤ (initState count size).receiveBuff.length := by
  simp only [initState, l2CAPCommandHeaderSize, List.length_replicate]
  omega

/-- C3. For every count `N ≥ 0` and every sequence of `N` rounds that end with the matching
response or with a timeout (after any frames that are passed over), the ping loop writes
exactly `N` echo requests and then prints the summary with `sent = N` and `received` = the
number of matched rounds, and exits with code 0; with `N = 0` nothing is written. What the
environment would answer after the `N` rounds is never looked at. -/
theorem bounded_session (cfg : Config) (size : Nat) (rounds : List Round) (ws : List Bool)
    (waits : List Wait) (hcount : cfg.count = (rounds.length : Int))
    (hN : (rounds.length : Int) < 9223372036854775808) (hok : SessionOK ident rounds) :
    (runSession cfg size rounds ws waits).status = .exited 0 ∧
      (runSession cfg size rounds ws waits).state.sentPkt = rounds.length ∧
      (runSession cfg size rounds ws waits).state.recvPkt = matchedCount rounds ∧
      ∃ tr,
        (runSession cfg size rounds ws waits).trace =
          tr ++ [.summary rounds.length (matchedCount rounds)
            (lossPercent rounds.length (matchedCount rounds)), .exit 0] ∧
        (writesOf tr).length = rounds.length ∧ summariesOf tr = [] ∧
        ∀ c, Act.exit c ∉ tr := by
  have hm : matchedCount rounds ≤ rounds.length := by
    unfold matchedCount; exact List.length_filter_le _ _
  obtain ⟨st1, tr, hrun, _, e2, e3, e4, _, _, e7, _, e9, e10⟩ :=
    session_rounds cfg rounds (initState cfg.count size) ws waits
      (Or.inr ⟨by simp only [initState]; omega, by simp only [initState]; omega⟩)
      (initState_buf _ _) hok (by simp only [initState]; omega)
      (by simp only [initState]; omega) (by simp only [initState]; omega)
      (by simp only [initState]; omega)
  have hc0 : st1.count = 0 := by
    rw [e2]
    have : (initState cfg.count size).count = rounds.length := by simp [initState, hcount]
    rw [this]
    have hne : ((rounds.length : Nat) : Int) ≠ -1 := by omega
    rw [if_neg hne]
    omega
  have hs : st1.sentPkt = rounds.length := by rw [e3]; simp [initState]
  have hr : st1.recvPkt = matchedCount rounds := by rw [e4]; simp [initState]
  have hfull : runSession cfg size rounds ws waits = _ := hrun
  rw [pingLoop_done cfg st1 ws waits hc0, hs, hr] at hfull
  rw [hfull]
  exact ⟨rfl, rfl, rfl, tr, rfl, e7, e9, e10⟩

/-- C3, witness: count 2, a timeout, then the response. -/
theorem bounded_session_witness :
    (runSession { svr := [], size := 44, count := 2, timeout := 10, delay := 1 } 44
        [{ stray := [], reply := none }, { stray := [], reply := some [44, 0] }] [] []).status
        = .exited 0 ∧
      (runSession { svr := [], size := 44, count := 2, timeout := 10, delay := 1 } 44
        [{ stray := [], reply := none }, { stray := [], reply := some [44, 0] }] []
        []).state.sentPkt = 2 ∧
      (runSession { svr := [], size := 44, count := 2, timeout := 10, delay := 1 } 44
        [{ stray := [], reply := none }, { stray := [], reply := some [44, 0] }] []
        []).state.recvPkt = 1 :=
  have h := bounded_session { svr := [], size := 44, count := 2, timeout := 10, delay := 1 } 44
    [{ stray := [], reply := none }, { stray := [], reply := some [44, 0] }] [] []
    (by decide) (by decide) (by simp [SessionOK])
  ⟨h.1, h.2.1, h.2.2.1⟩

/-- C9 (amended). The identifier offset printed in the success or loss line of the `k`-th
round of a session (`k` counted from 0) is the current identifier minus 200, which is
`k mod 55`: the offsets of the first `N` rounds are `0, 1, ..., 54, 0, 1, ...`. -/
theorem offset_is_round_mod_55 (cfg : Config) (size : Nat) (rounds : List Round)
    (ws : List Bool) (waits : List Wait)
    (hcount : cfg.count = -1 ∨
      ((rounds.length : Int) ≤ cfg.count ∧ cfg.count < 9223372036854775808))
    (hN : (rounds.length : Int) < 9223372036854775808) (hok : SessionOK ident rounds) :
    (∃ more, offsetsOf (runSession cfg size rounds ws waits).trace
        = (List.range rounds.length).map (fun k => k % 55) ++ more) ∧
      ∀ k, idAfter ident k - 200 = k % 55 ∧ idOffset (idAfter ident k) = k % 55 := by
  obtain ⟨st1, tr, hrun, _, _, _, _, _, _, _, e8, _, _⟩ :=
    session_rounds cfg rounds (initState cfg.count size) ws waits
      (by simpa [initState] using hcount)
      (initState_buf _ _) hok (by simp only [initState]; omega)
      (by simp only [initState]; omega) (by simp only [initState]; omega)
      (by simp only [initState]; omega)
  have hfull : runSession cfg size rounds ws waits = _ := hrun
  constructor
  · refine ⟨offsetsOf (pingLoop cfg st1 ws waits).trace, ?_⟩
    rw [hfull]
    simp only [offsetsOf, List.filterMap_append]
    unfold offsetsOf at e8
    have hmap : List.map (fun k => idOffset (idAfter (initState cfg.count size).id k))
        (List.range rounds.length) = List.map (fun k => k % 55) (List.range rounds.length) :=
      List.map_congr_left (fun k _ => idOffset_idAfter k)
    rw [e8, hmap]
  · intro k
    refine ⟨?_, idOffset_idAfter k⟩
    rw [idAfter_spec k ident (by decide) (by decide)]
    unfold ident
    omega

/-- C9, witness of the amended statement: three rounds. -/
theorem offset_is_round_mod_55_witness :
    ∃ more, offsetsOf (runSession { svr := [], size := 0, count := 3, timeout := 10, delay := 0 }
        0 (List.replicate 3 { stray := [], reply := none }) [] []).trace
      = (List.range 3).map (fun k => k % 55) ++ more :=
  (offset_is_round_mod_55 { svr := [], size := 0, count := 3, timeout := 10, delay := 0 } 0
    (List.replicate 3 { stray := [], reply := none }) [] []
    (Or.inr ⟨by decide, by decide⟩) (by decide) (by simp [SessionOK])).1

set_option maxRecDepth 100000 in
/-- C9, counterexample. In a session of 56 rounds the line of round 55 (the 56th, after the
identifier has gone from 254 back to 200) prints the offset 0, not 55. -/
theorem offset_wraps_after_55_rounds :
    (offsetsOf (runSession { svr := [], size := 0, count := 56, timeout := 10, delay := 0 } 0
        (List.replicate 56 { stray := [], reply := none }) [] []).trace)[55]? = some 0 ∧
      (offsetsOf (runSession { svr := [], size := 0, count := 56, timeout := 10, delay := 0 } 0
        (List.replicate 56 { stray := [], reply := none }) [] []).trace)[55]? ≠ some 55 := by
  decide

/-- C7. When, after any number of completed rounds, the wait for the current request ends
because the peer answers with a command reject for the current identifier or because a read
returns zero bytes (in both cases after any frames that are passed over), the session ends
with exit code 1 as its last act, no summary line is printed, the counters stay at the
number of completed rounds and of matched rounds, and the request of that round is the last
frame written, whatever the environment would still answer. -/
theorem fatal_outcome_aborts (cfg : Config) (size : Nat) (rounds : List Round)
    (strays : List (List Nat)) (fatal : List Nat) (ws : List Bool) (waits : List Wait)
    (hcount : cfg.count = -1 ∨
      ((rounds.length : Int) < cfg.count ∧ cfg.count < 9223372036854775808))
    (hN : (rounds.length : Int) < 9223372036854775808) (hok : SessionOK ident rounds)
    (hstray : ∀ f ∈ strays, Ignored (idAfter ident rounds.length) f)
    (hfatal : fatal = [] ∨
      ∃ tail, fatal = l2CAPCommandRejectResponse :: idAfter ident rounds.length :: tail) :
    (runSession cfg size rounds (true :: ws)
        (strays.map Wait.recvData ++ Wait.recvData fatal :: waits)).status = .exited 1 ∧
      (runSession cfg size rounds (true :: ws)
        (strays.map Wait.recvData ++ Wait.recvData fatal :: waits)).trace.getLast?
          = some (.exit 1) ∧
      summariesOf (runSession cfg size rounds (true :: ws)
        (strays.map Wait.recvData ++ Wait.recvData fatal :: waits)).trace = [] ∧
      (runSession cfg size rounds (true :: ws)
        (strays.map Wait.recvData ++ Wait.recvData fatal :: waits)).state.sentPkt
          = rounds.length ∧
      (runSession cfg size rounds (true :: ws)
        (strays.map Wait.recvData ++ Wait.recvData fatal :: waits)).state.recvPkt
          = matchedCount rounds ∧
      (writesOf (runSession cfg size rounds (true :: ws)
        (strays.map Wait.recvData ++ Wait.recvData fatal :: waits)).trace).length
          = rounds.length + 1 ∧
      (offsetsOf (runSession cfg size rounds (true :: ws)
        (strays.map Wait.recvData ++ Wait.recvData fatal :: waits)).trace).length
          = rounds.length := by
  obtain ⟨st1, tr, hrun, e1, e2, e3, e4, _, e6, e7, e8, e9, _⟩ :=
    session_rounds cfg rounds (initState cfg.count size) (true :: ws)
      (strays.map Wait.recvData ++ Wait.recvData fatal :: waits)
      (by
        simp only [initState]
        rcases hcount with h | ⟨h1, h2⟩
        · exact Or.inl h
        · exact Or.inr ⟨by omega, h2⟩)
      (initState_buf _ _) hok (by simp only [initState]; omega)
      (by simp only [initState]; omega) (by simp only [initState]; omega)
      (by simp only [initState]; omega)
  have hfull : runSession cfg size rounds (true :: ws)
      (strays.map Wait.recvData ++ Wait.recvData fatal :: waits) = _ := hrun
  have hid : st1.id = idAfter ident rounds.length := e1
  have hc1 : st1.count = -1 ∨ (0 < st1.count ∧ st1.count < 9223372036854775808) := by
    rw [e2]
    simp only [initState]
    rcases hcount with h | ⟨h1, h2⟩
    · left; simp [h]
    · right
      have hne : cfg.count ≠ -1 := by omega
      rw [if_neg hne]
      omega
  have hout := waitLoop_fatal cfg.timeout st1.id st1.receiveBuff strays fatal waits
    (by rw [e6]; exact initState_buf _ _) (by rw [hid]; exact hstray) (by rw [hid]; exact hfatal)
  obtain ⟨f1, f2, f3, f4, f5, f6, f7⟩ := pingLoop_failed cfg st1 ws _ hc1 hout
  rw [hfull]
  refine ⟨f1, ?_, ?_, ?_, ?_, ?_, ?_⟩
  · simp only
    rw [List.getLast?_append, f7]
    rfl
  · simp only [summariesOf, List.filterMap_append]
    unfold summariesOf at e9 f6
    rw [e9, f6]
    rfl
  · simp only
    rw [f2, e3]
    simp [initState]
  · simp only
    rw [f3, e4]
    simp [initState]
  · simp only [writesOf, List.filterMap_append, List.length_append]
    unfold writesOf at e7 f4
    rw [e7, f4]
    rfl
  · simp only [offsetsOf, List.filterMap_append, List.length_append]
    unfold offsetsOf at e8 f5
    rw [e8, f5]
    simp

/-- C7, witness: one completed round, then a command reject for identifier 201. -/
theorem fatal_outcome_aborts_witness :
    (runSession { svr := [], size := 0, count := -1, timeout := 10, delay := 0 } 0
        [{ stray := [], reply := some [0, 0] }] [true, true]
        ([].map Wait.recvData ++ Wait.recvData [1, 201, 0, 0] :: [Wait.pollTimeout])).status
        = .exited 1 ∧
      summariesOf (runSession { svr := [], size := 0, count := -1, timeout := 10, delay := 0 } 0
        [{ stray := [], reply := some [0, 0] }] [true, true]
        ([].map Wait.recvData ++ Wait.recvData [1, 201, 0, 0] :: [Wait.pollTimeout])).trace
        = [] :=
  have h := fatal_outcome_aborts
    { svr := [], size := 0, count := -1, timeout := 10, delay := 0 } 0
    [{ stray := [], reply := some [0, 0] }] [] [1, 201, 0, 0] [true] [Wait.pollTimeout]
    (Or.inl rfl) (by decide) (by simp [SessionOK]) (by simp)
    (Or.inr ⟨[0, 0], by decide⟩)
  ⟨h.1, h.2.2.1⟩

/-- C5, witness: the identifier after the first completed round. -/
theorem identifier_in_range_witness :
    200 ≤ (pingLoop { svr := [], size := 0, count := 1, timeout := 10, delay := 0 }
        (initState 1 0) [true] [Wait.pollTimeout]).state.id ∧
      (pingLoop { svr := [], size := 0, count := 1, timeout := 10, delay := 0 }
        (initState 1 0) [true] [Wait.pollTimeout]).state.id ≤ 254 :=
  (identifier_in_range { svr := [], size := 0, count := 1, timeout := 10, delay := 0 } 0).2.2.2
    [true] [Wait.pollTimeout]

/-- C8, witness: the first frame of a session with payload size 2. -/
theorem echo_frame_layout_witness :
    [8, 200, 2, 0, 65, 66] ∈ writesOf
        (cycle { svr := [], size := 2, count := -1, timeout := 10, delay := 0 }
          (initState (-1) 2) (some true) [Wait.pollTimeout]).trace ∧
      ([8, 200, 2, 0, 65, 66] : List Nat).length = 4 + 2 ∧
      ([8, 200, 2, 0, 65, 66] : List Nat).getD 0 0 = l2CAPEchoRequest ∧
      ([8, 200, 2, 0, 65, 66] : List Nat).getD 1 0 = (initState (-1) 2).id ∧
      ([8, 200, 2, 0, 65, 66] : List Nat).getD 2 0 = 2 % 256 ∧
      ([8, 200, 2, 0, 65, 66] : List Nat).getD 3 0 = 0 ∧
      ∀ i, i < 2 → ([8, 200, 2, 0, 65, 66] : List Nat).getD (4 + i) 0 = 'A'.toNat + i % 40 :=
  ⟨by decide,
    echo_frame_layout { svr := [], size := 2, count := -1, timeout := 10, delay := 0 } 2
      (initState (-1) 2) (some true) [Wait.pollTimeout] [8, 200, 2, 0, 65, 66]
      Reachable.init (by decide)⟩

/-! ## Theorems: the whole program -/

/-- When the system calls before the loop succeed, `ping` connects to the parsed address,
prints the banner and enters the loop with the variables of `initState`. -/
theorem ping_enters_loop (cfg : Config) (env : Env) (addr localAddr : SockaddrL2)
    (hsize : 0 ≤ cfg.size) (hmax : 4 + cfg.size ≤ maxAlloc)
    (hs : env.socket = true) (hb : env.bind = true) (ha : str2ba cfg.svr = some addr)
    (hc : env.connect = true) (hg : env.getsockname = some localAddr) :
    ping cfg env =
      { pingLoop cfg (initState cfg.count cfg.size.toNat) env.writes env.waits with
        trace := .connect addr :: .banner cfg.svr (ba2str localAddr) cfg.size ::
          (pingLoop cfg (initState cfg.count cfg.size.toNat) env.writes env.waits).trace } := by
  have h1 : ¬ (wrapInt (4 + cfg.size) < 0 ∨ maxAlloc < wrapInt (4 + cfg.size)) := by
    unfold maxAlloc at hmax ⊢
    rw [wrapInt_of_range _ (by omega) (by omega)]; omega
  have h2 : ¬ (cfg.size < 0) := by omega
  simp only [ping, if_neg h1, hs, hb, ha, hc, hg, if_neg h2, Bool.not_true, Bool.false_eq_true,
    if_false]

/-- With count 2, a timeout for the first request and the response to the second, the
program prints a loss line with offset 0, a success line with offset 1 and the summary
`2 sent, 1 received, 50% loss`, and exits with code 0. -/
theorem ping_two_requests_one_lost :
    (ping { svr := "01:02:03:04:05:06".toList, size := 0, count := 2, timeout := 10, delay := 1 }
        { socket := true, bind := true, connect := true
          getsockname := some { Addr := [6, 5, 4, 3, 2, 1], PSM := 0 }
          writes := [true, true]
          waits := [Wait.pollTimeout, Wait.recvData [9, 201, 0, 0]] }).trace =
      [.connect { Addr := [1, 2, 3, 4, 5, 6], PSM := 1 },
        .banner "01:02:03:04:05:06".toList "01:02:03:04:05:06".toList 0,
        .write [8, 200, 0, 0], .poll 10000, .loss 0,
        .write [8, 201, 0, 0], .poll 10000, .recvfrom, .success 0 1, .sleep 1000000000,
        .summary 2 1 50, .exit 0] := by
  decide

end L2ping
